import Mathlib

/-!
# Verification of `mcpi_fast_query` (minecraft-pi-fast-query.py)

A shallow embedding of the batch query engine `query_blocks`, its single
threaded worker loop `worker_fn`, the threaded orchestration path, the socket
cleanup loop, and the two picraft convenience wrappers, together with proofs
about them.

Modelling conventions:
* socket byte streams are `List Char`; the line terminator is `'\n'`;
* the server is the in-order responder assumed by the code: it answers the
  k-th complete command line received on a connection with the k-th answer
  text followed by the line terminator (spec: replies are strictly ordered
  per connection);
* nondeterminism of `select`, `send` and `recv` (readiness verdicts, how many
  bytes the transport moves) is an explicit schedule parameter, one schedule
  entry per iteration of the worker's while loop;
* fallible operations return `Except`, carrying the state at the failure so
  that the answers already pushed to the shared answer queue stay observable
  (as they do in the real code).
-/

set_option autoImplicit false

namespace Mcpi

/-- The line terminator used by the wire protocol. -/
def nl : Char := '\n'

/-- `splitLines s = (complete, leftover)`: the embedding of
`responses = response_buffer.split(b"\n"); response_buffer = responses[-1];
responses = responses[:-1]` (worker_fn lines 144-146).  `complete` lists the
segments terminated by `nl`, in order; `leftover` is the trailing segment
after the last terminator (possibly empty). -/
def splitLines : List Char → List (List Char) × List Char
  | [] => ([], [])
  | c :: rest =>
    let r := splitLines rest
    if c = nl then ([] :: r.1, r.2)
    else
      match r with
      | ([], t) => ([], c :: t)
      | (seg :: segs, t) => ((c :: seg) :: segs, t)

/-- `lineStream items` is the byte stream carrying each item as one
terminated line, in order. -/
def lineStream : List (List Char) → List Char
  | [] => []
  | l :: ls => l ++ nl :: lineStream ls

@[simp] theorem splitLines_nil : splitLines [] = ([], []) := rfl

theorem splitLines_cons_nl (rest : List Char) :
    splitLines (nl :: rest) = (([] :: (splitLines rest).1, (splitLines rest).2)) := by
  simp [splitLines]

theorem splitLines_cons_ne (c : Char) (rest : List Char) (hc : ¬ c = nl) :
    splitLines (c :: rest) =
      (match splitLines rest with
       | ([], t) => (([] : List (List Char)), c :: t)
       | (seg :: segs, t) => ((c :: seg) :: segs, t)) := by
  simp [splitLines, hc]

theorem splitLines_cons_ne_nil (c : Char) (rest : List Char) (hc : ¬ c = nl)
    (t : List Char) (h : splitLines rest = ([], t)) :
    splitLines (c :: rest) = ([], c :: t) := by
  simp [splitLines, hc, h]

theorem splitLines_cons_ne_cons (c : Char) (rest : List Char) (hc : ¬ c = nl)
    (s : List Char) (ss : List (List Char)) (t : List Char)
    (h : splitLines rest = (s :: ss, t)) :
    splitLines (c :: rest) = ((c :: s) :: ss, t) := by
  simp [splitLines, hc, h]

/-- The retained leftover never contains the line terminator. -/
theorem splitLines_snd_no_nl : ∀ l : List Char, nl ∉ (splitLines l).2 := by
  intro l
  induction l with
  | nil => simp
  | cons c rest ih =>
    by_cases hc : c = nl
    · subst hc; rw [splitLines_cons_nl]; exact ih
    · rw [splitLines_cons_ne c rest hc]
      cases hr : splitLines rest with
      | mk segs t =>
        cases segs with
        | nil =>
          simp only []
          intro hmem
          rcases List.mem_cons.mp hmem with h | h
          · exact hc h.symm
          · exact ih (by rw [hr]; exact h)
        | cons s ss =>
          simp only []
          rw [hr] at ih; exact ih

/-- A terminator-free stream splits into no complete segment. -/
theorem splitLines_no_nl (l : List Char) (h : nl ∉ l) : splitLines l = ([], l) := by
  induction l with
  | nil => rfl
  | cons c rest ih =>
    have hc : ¬ c = nl := fun hcn => h (by rw [hcn]; exact List.mem_cons_self _ _)
    rw [splitLines_cons_ne c rest hc, ih (fun hm => h (List.mem_cons_of_mem _ hm))]

/-- Splitting a single terminated line followed by more bytes. -/
theorem splitLines_line (l rest : List Char) (h : nl ∉ l) :
    splitLines (l ++ nl :: rest) =
      (l :: (splitLines rest).1, (splitLines rest).2) := by
  induction l with
  | nil => simp [splitLines_cons_nl]
  | cons c cs ih =>
    have hc : ¬ c = nl := fun hcn => h (by rw [hcn]; exact List.mem_cons_self _ _)
    have hcs : nl ∉ cs := fun hm => h (List.mem_cons_of_mem _ hm)
    rw [List.cons_append, splitLines_cons_ne c _ hc, ih hcs]

/-- Incremental splitting: splitting `a ++ b` is splitting `a`, then feeding
the retained leftover of `a` before `b`.  This is exactly the invariant that
lets `worker_fn` keep only the trailing segment between reads. -/
theorem splitLines_append (a b : List Char) :
    splitLines (a ++ b) =
      ((splitLines a).1 ++ (splitLines ((splitLines a).2 ++ b)).1,
       (splitLines ((splitLines a).2 ++ b)).2) := by
  induction a with
  | nil => simp
  | cons c rest ih =>
    by_cases hc : c = nl
    · subst hc
      rw [List.cons_append, splitLines_cons_nl, splitLines_cons_nl, ih]
      simp [List.cons_append]
    · rcases hr : splitLines rest with ⟨p, t⟩
      rcases hq : splitLines (t ++ b) with ⟨q, u⟩
      have hih := ih
      rw [hr] at hih
      simp only [Prod.fst, Prod.snd] at hih
      rw [hq] at hih
      simp only [Prod.fst, Prod.snd] at hih
      -- hih : splitLines (rest ++ b) = (p ++ q, u)
      cases p with
      | nil =>
        have h1 : splitLines (c :: rest) = ([], c :: t) :=
          splitLines_cons_ne_nil c rest hc t hr
        cases q with
        | nil =>
          have h2 : splitLines (rest ++ b) = ([], u) := by simpa using hih
          have h3 : splitLines (c :: (rest ++ b)) = ([], c :: u) :=
            splitLines_cons_ne_nil c _ hc u h2
          have h4 : splitLines (c :: (t ++ b)) = ([], c :: u) :=
            splitLines_cons_ne_nil c _ hc u hq
          rw [List.cons_append, h3, h1]
          simp [List.cons_append, h4]
        | cons q0 qs =>
          have h2 : splitLines (rest ++ b) = (q0 :: qs, u) := by simpa using hih
          have h3 := splitLines_cons_ne_cons c _ hc q0 qs u h2
          have h4 := splitLines_cons_ne_cons c _ hc q0 qs u hq
          rw [List.cons_append, h3, h1]
          simp [List.cons_append, h4]
      | cons p0 ps =>
        have h1 := splitLines_cons_ne_cons c rest hc p0 ps t hr
        have h2 : splitLines (rest ++ b) = (p0 :: (ps ++ q), u) := by simpa using hih
        have h3 := splitLines_cons_ne_cons c _ hc p0 (ps ++ q) u h2
        rw [List.cons_append, h3, h1]
        simp [List.cons_append, hq]

/-- A stream of terminator-free items, each sent as one terminated line,
splits back into exactly those items with empty leftover. -/
theorem splitLines_lineStream (items : List (List Char))
    (h : ∀ l ∈ items, nl ∉ l) :
    splitLines (lineStream items) = (items, []) := by
  induction items with
  | nil => rfl
  | cons l ls ih =>
    have hl : nl ∉ l := h l (List.mem_cons_self _ _)
    rw [lineStream, splitLines_line l _ hl,
        ih (fun x hx => h x (List.mem_cons_of_mem _ hx))]

theorem lineStream_append (xs ys : List (List Char)) :
    lineStream (xs ++ ys) = lineStream xs ++ lineStream ys := by
  induction xs with
  | nil => rfl
  | cons l ls ih =>
    rw [List.cons_append, lineStream, lineStream, ih]
    simp

/-- The complete segments of an initial fragment of a stream form an initial
fragment of the complete segments of the whole stream. -/
theorem splitLines_take_fst (A : List Char) (t : Nat) :
    ∃ u, (splitLines A).1 = (splitLines (A.take t)).1 ++ u := by
  have h := splitLines_append (A.take t) (A.drop t)
  rw [List.take_append_drop] at h
  exact ⟨_, congrArg Prod.fst h⟩

/-! ## The worker state machine (`worker_fn`, lines 92-149)

One `WState` collects the worker's local variables (`more_requests`,
`request_buffer`, `response_buffer`, `pending_request_queue`, the remaining
request iterator) together with the answers it has pushed to the answer queue
and the state of the in-order server behind its socket. -/

/-- The caller-supplied parameters of `query_blocks` that the worker closes
over: the command formatter `fmt % pos` (plus encoding), the response parser
`parse_fn`, and the positional answer text of the in-order server (`answerAt
k` is the reply text, without terminator, that the server sends for the k-th
complete command line received on this connection). -/
structure Ctx (Req Ans : Type) where
  encode : Req → List Char
  answerAt : Nat → List Char
  parse : List Char → Ans

/-- Commands and replies carry no embedded line terminator (wire protocol:
one command per line, one reply per line). -/
def CtxOK {Req Ans : Type} (C : Ctx Req Ans) : Prop :=
  (∀ r, nl ∉ C.encode r) ∧ (∀ k, nl ∉ C.answerAt k)

/-- State of one connection worker plus its connection's server side. -/
structure WState (Req Ans : Type) where
  moreRequests : Bool
  requestIter : List Req
  requestBuffer : List Char
  responseBuffer : List Char
  pending : List Req
  output : List (Req × Ans)
  srvLines : Nat
  srvTail : List Char
  srvOut : List Char
  deriving Repr

/-- One entry of the transport schedule: the `select` verdicts for this
iteration and how many bytes the transport moves on the single `send` /
`recv` the worker then performs. -/
structure Sched where
  canRead : Bool
  canWrite : Bool
  sendAccept : Nat
  recvCount : Nat
  deriving Repr

/-- The failures `worker_fn` can raise: `RuntimeError("unexpected
socket.send()=0")`, `RuntimeError("unexpected socket.recv()=0")`, and the
`IndexError` of `popleft` on an empty deque. -/
inductive WErr
  | sendZero
  | recvZero
  | popEmpty
  deriving Repr, DecidableEq

/-- `while more_requests or len(pending_request_queue) > 0` (line 106). -/
def wguard {Req Ans : Type} (st : WState Req Ans) : Bool :=
  st.moreRequests || !st.pending.isEmpty

/-- Fuel-indexed implementation of the request-drawing loop; the fuel always
mirrors the length of the remaining iterator plus one, so it never runs
out. -/
def drawLoopF {Req Ans : Type} (C : Ctx Req Ans) :
    Nat → WState Req Ans → WState Req Ans
  | 0, st => st
  | Nat.succ n, st =>
    if st.moreRequests = true ∧ st.requestBuffer.length < 4096 then
      match st.requestIter with
      | [] => { st with moreRequests := false }
      | r :: rest =>
        drawLoopF C n { st with
          requestIter := rest,
          requestBuffer := st.requestBuffer ++ C.encode r ++ [nl],
          pending := st.pending ++ [r] }
    else st

/-- The request-drawing loop (lines 107-117): while more requests may exist
and the send buffer is under 4096 bytes, draw the next request under the
lock, format it, append the command bytes and remember it in the pending
queue; on `StopIteration` clear `more_requests`. -/
def drawLoop {Req Ans : Type} (C : Ctx Req Ans) (st : WState Req Ans) :
    WState Req Ans :=
  drawLoopF C (st.requestIter.length + 1) st

/-- The one-step unfolding of the drawing loop. -/
theorem drawLoop_eq {Req Ans : Type} (C : Ctx Req Ans) (st : WState Req Ans) :
    drawLoop C st =
      if st.moreRequests = true ∧ st.requestBuffer.length < 4096 then
        match st.requestIter with
        | [] => { st with moreRequests := false }
        | r :: rest =>
          drawLoop C { st with
            requestIter := rest,
            requestBuffer := st.requestBuffer ++ C.encode r ++ [nl],
            pending := st.pending ++ [r] }
      else st := by
  rw [drawLoop, drawLoopF]
  cases hit : st.requestIter with
  | nil => rfl
  | cons r rest =>
    split
    · rfl
    · rfl

/-- The write step (lines 128-133): if `select` reported writable (which the
worker only asks for when the send buffer is non-empty), perform exactly one
`send`; the accepted bytes reach the server, which immediately answers each
newly completed command line, in order.  A zero-byte send raises. -/
def writePhase {Req Ans : Type} (C : Ctx Req Ans) (sc : Sched)
    (st : WState Req Ans) : Except (WErr × WState Req Ans) (WState Req Ans) :=
  if sc.canWrite = true ∧ st.requestBuffer ≠ [] then
    let n := min sc.sendAccept st.requestBuffer.length
    if n = 0 then .error (.sendZero, st)
    else
      let fed := splitLines (st.srvTail ++ st.requestBuffer.take n)
      .ok { st with
        requestBuffer := st.requestBuffer.drop n,
        srvLines := st.srvLines + fed.1.length,
        srvTail := fed.2,
        srvOut := st.srvOut ++
          lineStream ((List.range fed.1.length).map fun i =>
            C.answerAt (st.srvLines + i)) }
  else .ok st

/-- The read step (lines 136-141): if `select` reported readable, perform
exactly one `recv(1024)`; the delivered chunk is appended to the receive
buffer.  A zero-byte read raises. -/
def readPhase {Req Ans : Type} (sc : Sched) (st : WState Req Ans) :
    Except (WErr × WState Req Ans) (WState Req Ans) :=
  if sc.canRead = true then
    let k := min sc.recvCount (min 1024 st.srvOut.length)
    if k = 0 then .error (.recvZero, st)
    else .ok { st with
      responseBuffer := st.responseBuffer ++ st.srvOut.take k,
      srvOut := st.srvOut.drop k }
  else .ok st

/-- The matching loop (lines 147-149): for each complete segment pop the
oldest pending request and push the parsed pair; `popleft` on an empty
deque raises `IndexError`. -/
def matchSegs {Req Ans : Type} (C : Ctx Req Ans) :
    List (List Char) → WState Req Ans →
    Except (WErr × WState Req Ans) (WState Req Ans)
  | [], st => .ok st
  | seg :: segs, st =>
    match st.pending with
    | [] => .error (.popEmpty, st)
    | r :: ps =>
      matchSegs C segs { st with
        pending := ps,
        output := st.output ++ [(r, C.parse seg)] }

/-- The parse step (lines 143-149): split the receive buffer on the line
terminator, retain the trailing segment, and match every complete segment. -/
def parsePhase {Req Ans : Type} (C : Ctx Req Ans) (st : WState Req Ans) :
    Except (WErr × WState Req Ans) (WState Req Ans) :=
  let sp := splitLines st.responseBuffer
  matchSegs C sp.1 { st with responseBuffer := sp.2 }

/-- One full iteration of the worker's while loop (lines 106-149): draw,
re-check the termination condition (line 118's `continue`), select, write
once, read once, parse and match. -/
def workerStep {Req Ans : Type} (C : Ctx Req Ans) (sc : Sched)
    (st : WState Req Ans) : Except (WErr × WState Req Ans) (WState Req Ans) :=
  let s1 := drawLoop C st
  if wguard s1 then
    match writePhase C sc s1 with
    | .error e => .error e
    | .ok s2 =>
      match readPhase sc s2 with
      | .error e => .error e
      | .ok s3 => parsePhase C s3
  else .ok s1

/-- Result of running the worker loop under a finite schedule: `done` when
the while condition became false (normal return), `fail` when an exception
was raised (with the state at the raise, so the answers already queued stay
visible), `spin` when the schedule ran out first. -/
inductive RunRes (σ : Type)
  | done : σ → RunRes σ
  | fail : WErr → σ → RunRes σ
  | spin : σ → RunRes σ
  deriving Repr

/-- Run the worker loop, one schedule entry per iteration.  Each entry may
depend on the current state (an adaptive transport environment). -/
def workerRun {Req Ans : Type} (C : Ctx Req Ans) :
    List (WState Req Ans → Sched) → WState Req Ans → RunRes (WState Req Ans)
  | [], st => if wguard st then .spin st else .done st
  | pol :: rest, st =>
    if wguard st then
      match workerStep C (pol st) st with
      | .ok st' => workerRun C rest st'
      | .error (e, stE) => .fail e stE
    else .done st

/-- The worker's starting state (lines 102-105) for a request sequence `R`
on a fresh connection. -/
def initWState {Req Ans : Type} (R : List Req) : WState Req Ans :=
  { moreRequests := true
    requestIter := R
    requestBuffer := []
    responseBuffer := []
    pending := []
    output := []
    srvLines := 0
    srvTail := []
    srvOut := [] }

/-! ## The worker invariant

The ghost quantities `d` (requests drawn from the iterator), `sentLen` (bytes
of the command stream delivered to the server), `readLen` (bytes of the
answer stream delivered to the worker) and `m` (pairs matched) tie every
field of a reachable worker state to the request list `R`. -/

theorem take_append_le {α : Type} (l₁ l₂ : List α) (n : Nat) (h : n ≤ l₁.length) :
    (l₁ ++ l₂).take n = l₁.take n := by
  rw [List.take_append_eq_append_take, Nat.sub_eq_zero_of_le h]
  simp

theorem drop_append_le {α : Type} (l₁ l₂ : List α) (n : Nat) (h : n ≤ l₁.length) :
    (l₁ ++ l₂).drop n = l₁.drop n ++ l₂ := by
  rw [List.drop_append_eq_append_drop, Nat.sub_eq_zero_of_le h]
  simp

/-- The full command byte stream produced by the first `d` drawn requests. -/
def cmdS {Req Ans : Type} (C : Ctx Req Ans) (R : List Req) (d : Nat) : List Char :=
  lineStream ((R.take d).map C.encode)

/-- The first `n` answer texts of the in-order server. -/
def ansItems {Req Ans : Type} (C : Ctx Req Ans) (n : Nat) : List (List Char) :=
  (List.range n).map C.answerAt

/-- The answer byte stream for the first `n` answered commands. -/
def ansS {Req Ans : Type} (C : Ctx Req Ans) (n : Nat) : List Char :=
  lineStream (ansItems C n)

theorem length_ansItems {Req Ans : Type} (C : Ctx Req Ans) (n : Nat) :
    (ansItems C n).length = n := by simp [ansItems]

theorem cmdS_succ {Req Ans : Type} (C : Ctx Req Ans) (R : List Req) (d : Nat)
    (r : Req) (rest : List Req) (hdrop : R.drop d = r :: rest) :
    cmdS C R (d + 1) = cmdS C R d ++ (C.encode r ++ [nl]) := by
  have hlt : d < R.length := by
    by_contra hc
    rw [List.drop_eq_nil_of_le (by omega)] at hdrop
    exact List.noConfusion hdrop
  have hsplit : R = R.take d ++ (r :: rest) := by
    rw [← hdrop, List.take_append_drop]
  have hlen : (R.take d).length = d := List.length_take_of_le (by omega)
  have htake : R.take (d + 1) = R.take d ++ [r] := by
    have h1 : (R.take d ++ (r :: rest)).take ((R.take d).length + 1)
        = R.take d ++ (r :: rest).take 1 := List.take_append 1
    rw [hlen, ← hsplit] at h1
    simpa using h1
  rw [cmdS, htake, List.map_append, lineStream_append, cmdS]
  simp [lineStream]

theorem ansItems_add {Req Ans : Type} (C : Ctx Req Ans) (a b : Nat) :
    ansItems C (a + b) = ansItems C a ++ (List.range b).map (fun i => C.answerAt (a + i)) := by
  rw [ansItems, List.range_add, List.map_append, ansItems, List.map_map]
  rfl

theorem ansS_add {Req Ans : Type} (C : Ctx Req Ans) (a b : Nat) :
    ansS C (a + b) = ansS C a ++ lineStream ((List.range b).map fun i => C.answerAt (a + i)) := by
  rw [ansS, ansItems_add, lineStream_append, ansS]

theorem splitLines_cmdS {Req Ans : Type} (C : Ctx Req Ans) (hC : CtxOK C)
    (R : List Req) (d : Nat) :
    splitLines (cmdS C R d) = ((R.take d).map C.encode, []) :=
  splitLines_lineStream _ (by
    intro l hl
    rcases List.mem_map.mp hl with ⟨r, _, rfl⟩
    exact hC.1 r)

theorem splitLines_ansS {Req Ans : Type} (C : Ctx Req Ans) (hC : CtxOK C) (n : Nat) :
    splitLines (ansS C n) = (ansItems C n, []) :=
  splitLines_lineStream _ (by
    intro l hl
    rcases List.mem_map.mp hl with ⟨k, _, rfl⟩
    exact hC.2 k)

/-- Ghost progress counters of a worker run. -/
structure Ghost where
  d : Nat
  sentLen : Nat
  readLen : Nat
  m : Nat

/-- The worker invariant, relating a state to the request list through the
ghost counters. -/
structure InvAt {Req Ans : Type} (C : Ctx Req Ans) (R : List Req) (g : Ghost)
    (st : WState Req Ans) : Prop where
  hd : g.d ≤ R.length
  hIter : st.requestIter = R.drop g.d
  hMore : st.moreRequests = false → g.d = R.length
  hSent : g.sentLen ≤ (cmdS C R g.d).length
  hBuf : st.requestBuffer = (cmdS C R g.d).drop g.sentLen
  hLines : st.srvLines = (splitLines ((cmdS C R g.d).take g.sentLen)).1.length
  hTail : st.srvTail = (splitLines ((cmdS C R g.d).take g.sentLen)).2
  hRead : g.readLen ≤ (ansS C st.srvLines).length
  hOut : st.srvOut = (ansS C st.srvLines).drop g.readLen
  hSplit : splitLines ((ansS C st.srvLines).take g.readLen) =
    (ansItems C g.m, st.responseBuffer)
  hPend : st.pending = (R.take g.d).drop g.m
  hOutp : st.output = (R.take g.m).zip ((ansItems C g.m).map C.parse)
  hLinesLe : st.srvLines ≤ g.d
  hmLe : g.m ≤ st.srvLines

/-- A state is reachable-shaped if some ghost assignment satisfies `InvAt`. -/
def InvW {Req Ans : Type} (C : Ctx Req Ans) (R : List Req)
    (st : WState Req Ans) : Prop :=
  ∃ g, InvAt C R g st

theorem invAt_init {Req Ans : Type} (C : Ctx Req Ans) (R : List Req) :
    InvAt C R ⟨0, 0, 0, 0⟩ (initWState R) := by
  constructor <;> simp [initWState, cmdS, ansItems, ansS, lineStream]

theorem take_succ_of_drop {α : Type} {R : List α} {d : Nat} {r : α} {rest : List α}
    (hdrop : R.drop d = r :: rest) : R.take (d + 1) = R.take d ++ [r] := by
  have hlt : d < R.length := by
    by_contra hc
    rw [List.drop_eq_nil_of_le (by omega)] at hdrop
    exact List.noConfusion hdrop
  have hsplit : R = R.take d ++ (r :: rest) := by
    rw [← hdrop, List.take_append_drop]
  have hlen : (R.take d).length = d := List.length_take_of_le (by omega)
  have h1 : (R.take d ++ (r :: rest)).take ((R.take d).length + 1)
      = R.take d ++ (r :: rest).take 1 := List.take_append 1
  rw [hlen, ← hsplit] at h1
  simpa using h1

theorem lt_length_of_drop_cons {α : Type} {R : List α} {d : Nat} {r : α}
    {rest : List α} (hdrop : R.drop d = r :: rest) : d < R.length := by
  by_contra hc
  rw [List.drop_eq_nil_of_le (by omega)] at hdrop
  exact List.noConfusion hdrop

/-- The iterator-exhausted branch of `drawLoop` keeps the invariant. -/
theorem invAt_clearMore {Req Ans : Type} {C : Ctx Req Ans} {R : List Req}
    {g : Ghost} {st : WState Req Ans} (h : InvAt C R g st)
    (heq : st.requestIter = []) :
    InvAt C R ⟨g.d, g.sentLen, g.readLen, g.m⟩ { st with moreRequests := false } := by
  have hdlen : g.d = R.length := by
    have h2 : R.drop g.d = [] := by rw [← h.hIter, heq]
    exact Nat.le_antisymm h.hd (List.drop_eq_nil_iff.mp h2)
  exact {
    hd := h.hd, hIter := h.hIter, hMore := fun _ => hdlen,
    hSent := h.hSent, hBuf := h.hBuf, hLines := h.hLines,
    hTail := h.hTail, hRead := h.hRead, hOut := h.hOut,
    hSplit := h.hSplit, hPend := h.hPend, hOutp := h.hOutp,
    hLinesLe := h.hLinesLe, hmLe := h.hmLe }

/-- One draw step (format one request, append its command bytes, remember it
in the pending queue) moves the invariant from `d` drawn to `d + 1` drawn. -/
theorem invAt_drawStep {Req Ans : Type} {C : Ctx Req Ans} (_hC : CtxOK C)
    {R : List Req} {g : Ghost} {st : WState Req Ans} (h : InvAt C R g st)
    {r : Req} {rest : List Req} (heq : st.requestIter = r :: rest)
    (hmr : st.moreRequests = true) :
    InvAt C R ⟨g.d + 1, g.sentLen, g.readLen, g.m⟩
      { st with
        requestIter := rest,
        requestBuffer := st.requestBuffer ++ C.encode r ++ [nl],
        pending := st.pending ++ [r] } := by
  have hdrop : R.drop g.d = r :: rest := by rw [← h.hIter, heq]
  have hlt : g.d < R.length := lt_length_of_drop_cons hdrop
  have hcmd : cmdS C R (g.d + 1) = cmdS C R g.d ++ (C.encode r ++ [nl]) :=
    cmdS_succ C R g.d r rest hdrop
  have htk : R.take (g.d + 1) = R.take g.d ++ [r] := take_succ_of_drop hdrop
  have hmd : g.m ≤ g.d := Nat.le_trans h.hmLe h.hLinesLe
  have htdlen : (R.take g.d).length = g.d := List.length_take_of_le (by omega)
  refine {
    hd := by show g.d + 1 ≤ R.length; omega,
    hIter := ?_, hMore := ?_, hSent := ?_, hBuf := ?_, hLines := ?_,
    hTail := ?_, hRead := ?_, hOut := ?_, hSplit := ?_, hPend := ?_,
    hOutp := ?_, hLinesLe := ?_, hmLe := ?_ }
  · show rest = R.drop (g.d + 1)
    rw [← List.drop_drop, hdrop]
    rfl
  · intro hf
    simp only [] at hf
    rw [hmr] at hf
    exact absurd hf (by simp)
  · show g.sentLen ≤ (cmdS C R (g.d + 1)).length
    rw [hcmd, List.length_append]
    have := h.hSent
    omega
  · show st.requestBuffer ++ C.encode r ++ [nl] = (cmdS C R (g.d + 1)).drop g.sentLen
    rw [hcmd, drop_append_le _ _ _ h.hSent, ← h.hBuf, List.append_assoc]
  · show st.srvLines = (splitLines ((cmdS C R (g.d + 1)).take g.sentLen)).1.length
    rw [hcmd, take_append_le _ _ _ h.hSent]
    exact h.hLines
  · show st.srvTail = (splitLines ((cmdS C R (g.d + 1)).take g.sentLen)).2
    rw [hcmd, take_append_le _ _ _ h.hSent]
    exact h.hTail
  · exact h.hRead
  · exact h.hOut
  · exact h.hSplit
  · show st.pending ++ [r] = (R.take (g.d + 1)).drop g.m
    rw [htk, drop_append_le _ _ _ (by omega), ← h.hPend]
  · exact h.hOutp
  · exact Nat.le_trans h.hLinesLe (Nat.le_succ _)
  · exact h.hmLe

/-- `drawLoop` preserves the invariant, advancing only the drawn counter. -/
theorem invAt_drawLoop {Req Ans : Type} (C : Ctx Req Ans) (hC : CtxOK C)
    (R : List Req) :
    ∀ (n : Nat) (st : WState Req Ans) (g : Ghost), st.requestIter.length ≤ n →
      InvAt C R g st →
      ∃ d', g.d ≤ d' ∧ InvAt C R ⟨d', g.sentLen, g.readLen, g.m⟩ (drawLoop C st) := by
  intro n
  induction n with
  | zero =>
    intro st g hlen h
    rw [drawLoop_eq]
    split
    · rename_i hcond
      split
      · rename_i heq
        exact ⟨g.d, Nat.le_refl _, invAt_clearMore h heq⟩
      · rename_i r rest heq
        rw [heq] at hlen
        exact absurd hlen (by simp)
    · exact ⟨g.d, Nat.le_refl _, h⟩
  | succ n ih =>
    intro st g hlen h
    rw [drawLoop_eq]
    split
    · rename_i hcond
      split
      · rename_i heq
        exact ⟨g.d, Nat.le_refl _, invAt_clearMore h heq⟩
      · rename_i r rest heq
        have hstep := invAt_drawStep hC h heq hcond.1
        have hlen1 : rest.length ≤ n := by
          rw [heq] at hlen
          simpa using hlen
        obtain ⟨d', hd', hinv'⟩ := ih _ ⟨g.d + 1, g.sentLen, g.readLen, g.m⟩ hlen1 hstep
        have hd2 : g.d + 1 ≤ d' := hd'
        exact ⟨d', by omega, hinv'⟩
    · exact ⟨g.d, Nat.le_refl _, h⟩

/-- Bytes the transport accepts in the write step of one iteration. -/
def wN {Req Ans : Type} (sc : Sched) (st : WState Req Ans) : Nat :=
  if sc.canWrite = true ∧ st.requestBuffer ≠ [] then
    min sc.sendAccept st.requestBuffer.length
  else 0

/-- A write that moves zero bytes while the send buffer is non-empty raises
`RuntimeError("unexpected socket.send()=0")` (lines 130-133). -/
theorem writePhase_sendZero {Req Ans : Type} (C : Ctx Req Ans) (sc : Sched)
    (st : WState Req Ans) (hw : sc.canWrite = true) (hb : st.requestBuffer ≠ [])
    (ha : sc.sendAccept = 0) :
    writePhase C sc st = .error (.sendZero, st) := by
  rw [writePhase]
  simp [hw, hb, ha]

/-- `writePhase` preserves the invariant whenever it does not raise. -/
theorem invAt_writePhase {Req Ans : Type} {C : Ctx Req Ans} (hC : CtxOK C)
    {R : List Req} {g : Ghost} {st : WState Req Ans} (h : InvAt C R g st)
    (sc : Sched)
    (hok : ¬(sc.canWrite = true ∧ st.requestBuffer ≠ [] ∧ sc.sendAccept = 0)) :
    ∃ st', writePhase C sc st = .ok st' ∧
      InvAt C R ⟨g.d, g.sentLen + wN sc st, g.readLen, g.m⟩ st' ∧
      st'.moreRequests = st.moreRequests ∧
      st'.requestIter = st.requestIter ∧
      st'.pending = st.pending ∧
      st'.output = st.output ∧
      st'.responseBuffer = st.responseBuffer ∧
      (∃ t, st'.srvOut = st.srvOut ++ t) ∧
      st'.requestBuffer.length = st.requestBuffer.length - wN sc st ∧
      (¬(sc.canWrite = true ∧ st.requestBuffer ≠ []) → st' = st) := by
  by_cases hcond : sc.canWrite = true ∧ st.requestBuffer ≠ []
  · -- a write happens
    have hn0 : sc.sendAccept ≠ 0 := fun hz => hok ⟨hcond.1, hcond.2, hz⟩
    have hbl : 0 < st.requestBuffer.length := List.length_pos.mpr hcond.2
    set n := min sc.sendAccept st.requestBuffer.length with hn
    have hnpos : n ≠ 0 := by
      rw [hn]
      omega
    have hwN : wN sc st = n := by rw [wN, if_pos hcond]
    have hstep : writePhase C sc st = .ok { st with
        requestBuffer := st.requestBuffer.drop n,
        srvLines := st.srvLines +
          (splitLines (st.srvTail ++ st.requestBuffer.take n)).1.length,
        srvTail := (splitLines (st.srvTail ++ st.requestBuffer.take n)).2,
        srvOut := st.srvOut ++ lineStream
          ((List.range (splitLines (st.srvTail ++ st.requestBuffer.take n)).1.length).map
            fun i => C.answerAt (st.srvLines + i)) } := by
      rw [writePhase, if_pos hcond, ← hn, if_neg hnpos]
    refine ⟨_, hstep, ?_, rfl, rfl, rfl, rfl, rfl, ⟨_, rfl⟩, by simp [hwN],
      fun hcon => absurd hcond hcon⟩
    -- the invariant for the new state
    have hA := h.hBuf
    have hnle : n ≤ (cmdS C R g.d).length - g.sentLen := by
      have h1 : n ≤ st.requestBuffer.length := Nat.min_le_right _ _
      rw [hA, List.length_drop] at h1
      exact h1
    have hSentLen : g.sentLen ≤ (cmdS C R g.d).length := h.hSent
    have htake_add : (cmdS C R g.d).take (g.sentLen + n) =
        (cmdS C R g.d).take g.sentLen ++ st.requestBuffer.take n := by
      rw [List.take_add, hA]
    have hfedFull := splitLines_append ((cmdS C R g.d).take g.sentLen)
      (st.requestBuffer.take n)
    rw [← htake_add, ← h.hTail] at hfedFull
    -- hfedFull : splitLines (take (sl+n)) =
    --   (s1(take sl) ++ (splitLines (srvTail ++ sent)).1, (splitLines (srvTail ++ sent)).2)
    have hlen_d : ((R.take g.d).map C.encode).length = g.d := by
      rw [List.length_map]
      exact List.length_take_of_le h.hd
    have hlines_le : (splitLines ((cmdS C R g.d).take (g.sentLen + n))).1.length ≤ g.d := by
      obtain ⟨u, hu⟩ := splitLines_take_fst (cmdS C R g.d) (g.sentLen + n)
      rw [splitLines_cmdS C hC] at hu
      have := congrArg List.length hu
      rw [List.length_append, hlen_d] at this
      omega
    refine {
      hd := h.hd, hIter := h.hIter, hMore := h.hMore,
      hSent := ?_, hBuf := ?_, hLines := ?_, hTail := ?_,
      hRead := ?_, hOut := ?_, hSplit := ?_,
      hPend := h.hPend, hOutp := h.hOutp, hLinesLe := ?_, hmLe := ?_ }
    · show g.sentLen + wN sc st ≤ (cmdS C R g.d).length
      rw [hwN]
      omega
    · show st.requestBuffer.drop n = (cmdS C R g.d).drop (g.sentLen + wN sc st)
      rw [hwN, hA, List.drop_drop]
    · show st.srvLines + (splitLines (st.srvTail ++ st.requestBuffer.take n)).1.length
        = (splitLines ((cmdS C R g.d).take (g.sentLen + wN sc st))).1.length
      rw [hwN, hfedFull]
      simp only [List.length_append]
      rw [h.hLines]
    · show (splitLines (st.srvTail ++ st.requestBuffer.take n)).2
        = (splitLines ((cmdS C R g.d).take (g.sentLen + wN sc st))).2
      rw [hwN, hfedFull]
    · -- readLen still within the (longer) answer stream
      show g.readLen ≤ (ansS C (st.srvLines +
        (splitLines (st.srvTail ++ st.requestBuffer.take n)).1.length)).length
      rw [ansS_add, List.length_append]
      have := h.hRead
      omega
    · show st.srvOut ++ _ = (ansS C (st.srvLines + _)).drop g.readLen
      rw [ansS_add, drop_append_le _ _ _ h.hRead, h.hOut]
    · show splitLines ((ansS C (st.srvLines + _)).take g.readLen) = _
      rw [ansS_add, take_append_le _ _ _ h.hRead]
      exact h.hSplit
    · show st.srvLines + (splitLines (st.srvTail ++ st.requestBuffer.take n)).1.length ≤ g.d
      have h2 := hfedFull
      have h3 := congrArg (fun p => (Prod.fst p).length) h2
      simp only [List.length_append] at h3
      rw [← h.hLines] at h3
      omega
    · show g.m ≤ st.srvLines + _
      have := h.hmLe
      omega
  · -- no write performed
    have hstep : writePhase C sc st = .ok st := by
      rw [writePhase, if_neg hcond]
    have hwN : wN sc st = 0 := by rw [wN, if_neg hcond]
    refine ⟨st, hstep, ?_, rfl, rfl, rfl, rfl, rfl, ⟨[], by simp⟩, by simp [hwN],
      fun _ => rfl⟩
    rw [hwN]
    have hg : (⟨g.d, g.sentLen + 0, g.readLen, g.m⟩ : Ghost) = g := by
      simp
    rw [hg]
    exact h

/-- When enough requests are pending, the matching loop pops them in FIFO
order and appends the parsed pairs. -/
theorem matchSegs_ok {Req Ans : Type} (C : Ctx Req Ans) :
    ∀ (segs : List (List Char)) (st : WState Req Ans),
      segs.length ≤ st.pending.length →
      matchSegs C segs st = .ok { st with
        pending := st.pending.drop segs.length,
        output := st.output ++ (st.pending.take segs.length).zip (segs.map C.parse) } := by
  intro segs
  induction segs with
  | nil =>
    intro st _
    simp [matchSegs]
  | cons seg segs ih =>
    intro st hlen
    cases hp : st.pending with
    | nil =>
      rw [hp] at hlen
      simp at hlen
    | cons r ps =>
      have hstep : matchSegs C (seg :: segs) st = matchSegs C segs
          { st with pending := ps, output := st.output ++ [(r, C.parse seg)] } := by
        rw [matchSegs, hp]
      rw [hstep]
      have hlen2 : segs.length ≤ ps.length := by
        rw [hp] at hlen
        simpa using hlen
      rw [ih _ hlen2]
      simp only [Except.ok.injEq]
      simp [WState.mk.injEq, List.append_assoc]

/-- Bytes the transport delivers in the read step of one iteration. -/
def rK {Req Ans : Type} (sc : Sched) (st : WState Req Ans) : Nat :=
  if sc.canRead = true then min sc.recvCount (min 1024 st.srvOut.length) else 0

/-- A read that moves zero bytes raises
`RuntimeError("unexpected socket.recv()=0")` (lines 138-141). -/
theorem readPhase_recvZero {Req Ans : Type} (sc : Sched) (st : WState Req Ans)
    (hr : sc.canRead = true)
    (hz : min sc.recvCount (min 1024 st.srvOut.length) = 0) :
    readPhase sc st = .error (.recvZero, st) := by
  rw [readPhase]
  simp [hr, hz]

/-- The read and parse steps preserve the invariant whenever the read does
not raise: the complete segments of the refreshed receive buffer match, in
order, exactly the oldest pending requests, so the matching loop succeeds. -/
theorem invAt_readParse {Req Ans : Type} {C : Ctx Req Ans} (hC : CtxOK C)
    {R : List Req} {g : Ghost} {st : WState Req Ans} (h : InvAt C R g st)
    (sc : Sched)
    (hok : ¬(sc.canRead = true ∧ min sc.recvCount (min 1024 st.srvOut.length) = 0)) :
    ∃ st2, readPhase sc st = .ok st2 ∧
    ∃ st' m', parsePhase C st2 = .ok st' ∧
      g.m ≤ m' ∧
      InvAt C R ⟨g.d, g.sentLen, g.readLen + rK sc st, m'⟩ st' ∧
      st'.moreRequests = st.moreRequests ∧
      st'.requestIter = st.requestIter ∧
      st'.requestBuffer = st.requestBuffer ∧
      st'.srvOut = st.srvOut.drop (rK sc st) := by
  have hnoNl : nl ∉ st.responseBuffer := by
    have := splitLines_snd_no_nl ((ansS C st.srvLines).take g.readLen)
    rw [h.hSplit] at this
    exact this
  by_cases hcr : sc.canRead = true
  · -- a read happens; it moves k ≥ 1 bytes
    set k := min sc.recvCount (min 1024 st.srvOut.length) with hk
    have hkpos : k ≠ 0 := fun hz => hok ⟨hcr, hz⟩
    have hrK : rK sc st = k := by rw [rK, if_pos hcr]
    have hread : readPhase sc st = .ok { st with
        responseBuffer := st.responseBuffer ++ st.srvOut.take k,
        srvOut := st.srvOut.drop k } := by
      rw [readPhase, if_pos hcr, ← hk, if_neg hkpos]
    refine ⟨_, hread, ?_⟩
    -- notation
    have hkle : k ≤ (ansS C st.srvLines).length - g.readLen := by
      have h1 : k ≤ st.srvOut.length := by
        rw [hk]
        omega
      rw [h.hOut, List.length_drop] at h1
      exact h1
    have hchunk : st.srvOut.take k = ((ansS C st.srvLines).drop g.readLen).take k := by
      rw [h.hOut]
    have htake_add : (ansS C st.srvLines).take (g.readLen + k) =
        (ansS C st.srvLines).take g.readLen ++ st.srvOut.take k := by
      rw [List.take_add, hchunk]
    have hsplit2 := splitLines_append ((ansS C st.srvLines).take g.readLen)
      (st.srvOut.take k)
    rw [← htake_add, h.hSplit] at hsplit2
    -- hsplit2 : splitLines (take (rl+k)) =
    --    (ansItems g.m ++ (splitLines (respBuf ++ chunk)).1, (splitLines (respBuf ++ chunk)).2)
    set segs := (splitLines (st.responseBuffer ++ st.srvOut.take k)).1 with hsegs
    set rest := (splitLines (st.responseBuffer ++ st.srvOut.take k)).2 with hrest
    set m' := g.m + segs.length with hm'
    -- the new complete segments are exactly answers g.m .. m'
    have hfront : ∃ u, ansItems C st.srvLines = (ansItems C g.m ++ segs) ++ u := by
      obtain ⟨u, hu⟩ := splitLines_take_fst (ansS C st.srvLines) (g.readLen + k)
      rw [splitLines_ansS C hC] at hu
      rw [hsplit2] at hu
      exact ⟨u, hu⟩
    obtain ⟨u, hu⟩ := hfront
    have hm'le : m' ≤ st.srvLines := by
      have := congrArg List.length hu
      simp only [List.length_append, length_ansItems] at this
      omega
    have hE5 : ansItems C m' = ansItems C g.m ++ segs := by
      have h1 : (ansItems C st.srvLines).take m' = ansItems C g.m ++ segs := by
        rw [hu]
        refine List.take_left' ?_
        simp [length_ansItems, hm']
      rw [ansItems, ← List.map_take, List.take_range, Nat.min_eq_left hm'le] at h1
      rw [ansItems]
      exact h1
    -- enough pending requests
    have hdR : g.d ≤ R.length := h.hd
    have htdlen : (R.take g.d).length = g.d := List.length_take_of_le hdR
    have hpendlen : st.pending.length = g.d - g.m := by
      rw [h.hPend, List.length_drop, htdlen]
    have hsegs_le : segs.length ≤ st.pending.length := by
      have := h.hLinesLe
      rw [hpendlen]
      omega
    have hmatch := matchSegs_ok C segs { st with
      responseBuffer := rest,
      srvOut := st.srvOut.drop k }
    simp only [] at hmatch
    have hparse : parsePhase C { st with
        responseBuffer := st.responseBuffer ++ st.srvOut.take k,
        srvOut := st.srvOut.drop k } = matchSegs C segs { st with
        responseBuffer := rest,
        srvOut := st.srvOut.drop k } := by
      rw [parsePhase]
    rw [hparse, hmatch hsegs_le]
    refine ⟨_, m', rfl, by omega, ?_, rfl, rfl, rfl, by rw [hrK]⟩
    have hmd : g.m ≤ g.d := Nat.le_trans h.hmLe h.hLinesLe
    have hm'd : m' ≤ g.d := Nat.le_trans hm'le h.hLinesLe
    refine {
      hd := h.hd, hIter := h.hIter, hMore := h.hMore,
      hSent := h.hSent, hBuf := h.hBuf, hLines := h.hLines, hTail := h.hTail,
      hRead := ?_, hOut := ?_, hSplit := ?_, hPend := ?_, hOutp := ?_,
      hLinesLe := h.hLinesLe, hmLe := ?_ }
    · show g.readLen + rK sc st ≤ (ansS C st.srvLines).length
      rw [hrK]
      omega
    · show st.srvOut.drop k = (ansS C st.srvLines).drop (g.readLen + rK sc st)
      rw [hrK, h.hOut, List.drop_drop]
    · show splitLines ((ansS C st.srvLines).take (g.readLen + rK sc st)) = (ansItems C m', rest)
      rw [hrK, hsplit2, hE5]
    · show st.pending.drop segs.length = (R.take g.d).drop m'
      rw [h.hPend, List.drop_drop, hm']
    · show st.output ++ (st.pending.take segs.length).zip (segs.map C.parse)
        = (R.take m').zip ((ansItems C m').map C.parse)
      have hmR : g.m ≤ R.length := by omega
      have hsplitm : R.take m' = R.take g.m ++ (R.take m').drop g.m := by
        have h1 : (R.take m').take g.m = R.take g.m := by
          rw [List.take_take, Nat.min_eq_left (by omega)]
        conv_lhs => rw [← List.take_append_drop g.m (R.take m')]
        rw [h1]
      have hzip : (R.take m').zip ((ansItems C m').map C.parse)
          = (R.take g.m).zip ((ansItems C g.m).map C.parse) ++
            ((R.take m').drop g.m).zip (segs.map C.parse) := by
        rw [hE5, List.map_append]
        conv_lhs => rw [hsplitm]
        refine List.zip_append ?_
        rw [List.length_take_of_le hmR, List.length_map, length_ansItems]
      rw [hzip, ← h.hOutp]
      congr 1
      -- pending.take |segs| is the slice R[m..m')
      have hTm : (R.take m').drop g.m = ((R.take g.d).drop g.m).take (m' - g.m) := by
        have h1 : R.take m' = (R.take g.d).take m' := by
          rw [List.take_take, Nat.min_eq_left hm'd]
        rw [h1, List.drop_take]
      rw [h.hPend, hTm, hm', Nat.add_sub_cancel_left]
    · show m' ≤ st.srvLines
      exact hm'le
  · -- no read: the receive buffer still has no complete segment
    have hread : readPhase sc st = .ok st := by
      rw [readPhase, if_neg hcr]
    have hrK : rK sc st = 0 := by rw [rK, if_neg hcr]
    have hsplit0 : splitLines st.responseBuffer = ([], st.responseBuffer) :=
      splitLines_no_nl _ hnoNl
    have hparse : parsePhase C st = .ok st := by
      rw [parsePhase, hsplit0]
      rw [matchSegs]
    refine ⟨st, hread, st, g.m, hparse, Nat.le_refl _, ?_, rfl, rfl, rfl, by
      rw [hrK]
      simp⟩
    rw [hrK]
    have hg : (⟨g.d, g.sentLen, g.readLen + 0, g.m⟩ : Ghost) = g := by simp
    rw [hg]
    exact h

/-! ## Termination of the worker loop under a responsive transport -/

/-- First component of the termination measure: requests still to draw, plus
one while the iterator has not reported exhaustion. -/
def aMeasure {Req Ans : Type} (st : WState Req Ans) : Nat :=
  st.requestIter.length + (if st.moreRequests = true then 1 else 0)

theorem drawLoop_of_not_more {Req Ans : Type} (C : Ctx Req Ans)
    (st : WState Req Ans) (h : st.moreRequests = false) : drawLoop C st = st := by
  rw [drawLoop_eq]
  rw [if_neg]
  intro hc
  rw [h] at hc
  exact absurd hc.1 (by simp)

theorem drawLoop_of_big_buffer {Req Ans : Type} (C : Ctx Req Ans)
    (st : WState Req Ans) (h : ¬ st.requestBuffer.length < 4096) :
    drawLoop C st = st := by
  rw [drawLoop_eq]
  rw [if_neg]
  intro hc
  exact h hc.2

theorem drawLoop_of_iter_nil {Req Ans : Type} (C : Ctx Req Ans)
    (st : WState Req Ans) (h : st.requestIter = []) :
    drawLoop C st = st ∨ drawLoop C st = { st with moreRequests := false } := by
  rw [drawLoop_eq]
  split
  · split
    · right
      rfl
    · rename_i r rest heq
      rw [h] at heq
      exact absurd heq (by simp)
  · left
    rfl

theorem drawLoop_aMeasure_le {Req Ans : Type} (C : Ctx Req Ans) :
    ∀ (n : Nat) (st : WState Req Ans), st.requestIter.length ≤ n →
      aMeasure (drawLoop C st) ≤ aMeasure st ∧
      (drawLoop C st).requestBuffer.length ≤
        st.requestBuffer.length + (lineStream (st.requestIter.map C.encode)).length := by
  intro n
  induction n with
  | zero =>
    intro st hlen
    rw [drawLoop_eq]
    split
    · split
      · rename_i heq
        constructor
        · rw [aMeasure, aMeasure]
          simp [heq]
        · simp
      · rename_i r rest heq
        rw [heq] at hlen
        exact absurd hlen (by simp)
    · exact ⟨Nat.le_refl _, by simp⟩
  | succ n ih =>
    intro st hlen
    rw [drawLoop_eq]
    split
    · rename_i hcond
      split
      · rename_i heq
        constructor
        · rw [aMeasure, aMeasure]
          simp [heq]
        · simp
      · rename_i r rest heq
        have hlen1 : rest.length ≤ n := by
          rw [heq] at hlen
          simpa using hlen
        obtain ⟨iha, ihb⟩ := ih { st with
          requestIter := rest,
          requestBuffer := st.requestBuffer ++ C.encode r ++ [nl],
          pending := st.pending ++ [r] } hlen1
        constructor
        · refine Nat.le_trans iha ?_
          rw [aMeasure, aMeasure]
          simp only [heq]
          simp [hcond.1]
        · refine Nat.le_trans ihb ?_
          simp only [heq]
          simp [lineStream]
          omega
    · exact ⟨Nat.le_refl _, by simp⟩

theorem drawLoop_aMeasure_lt {Req Ans : Type} (C : Ctx Req Ans)
    (st : WState Req Ans) (hmr : st.moreRequests = true)
    (hbuf : st.requestBuffer.length < 4096) :
    aMeasure (drawLoop C st) < aMeasure st := by
  rw [drawLoop_eq]
  rw [if_pos ⟨hmr, hbuf⟩]
  cases heq : st.requestIter with
  | nil =>
    rw [aMeasure, aMeasure]
    simp [heq, hmr]
  | cons r rest =>
    have h1 := (drawLoop_aMeasure_le C rest.length { st with
      requestIter := rest,
      requestBuffer := st.requestBuffer ++ C.encode r ++ [nl],
      pending := st.pending ++ [r] } (Nat.le_refl _)).1
    refine Nat.lt_of_le_of_lt h1 ?_
    rw [aMeasure, aMeasure]
    simp only [heq]
    simp [hmr]

theorem not_isEmpty_iff_ne_nil {α : Type} (l : List α) : (!l.isEmpty) = true ↔ l ≠ [] := by
  cases l <;> simp

theorem lex3_embed (a b c a' b' c' B Cc : Nat) (hb : b ≤ B) (_hc : c ≤ Cc)
    (hb' : b' ≤ B) (hc' : c' ≤ Cc)
    (hlt : a' < a ∨ (a' = a ∧ b' < b) ∨ (a' = a ∧ b' = b ∧ c' < c)) :
    a' * ((B+1)*(Cc+1)) + b' * (Cc+1) + c' < a * ((B+1)*(Cc+1)) + b * (Cc+1) + c := by
  rcases hlt with h1 | ⟨h1, h2⟩ | ⟨h1, h2, h3⟩
  · have key : (a' + 1) * ((B+1)*(Cc+1)) ≤ a * ((B+1)*(Cc+1)) :=
      Nat.mul_le_mul_right _ h1
    rw [Nat.add_one_mul] at key
    have hb2 : b' * (Cc+1) ≤ B * (Cc+1) := Nat.mul_le_mul_right _ hb'
    have hK : (B+1)*(Cc+1) = B*(Cc+1) + Cc + 1 := by ring
    omega
  · subst h1
    have key : (b' + 1) * (Cc+1) ≤ b * (Cc+1) := Nat.mul_le_mul_right _ h2
    rw [Nat.add_one_mul] at key
    omega
  · subst h1; subst h2
    omega

/-- `drawLoop` touches only the iterator, send buffer, pending queue and the
`more_requests` flag. -/
theorem drawLoop_fields {Req Ans : Type} (C : Ctx Req Ans) :
    ∀ (n : Nat) (st : WState Req Ans), st.requestIter.length ≤ n →
      (drawLoop C st).srvOut = st.srvOut ∧
      (drawLoop C st).srvLines = st.srvLines ∧
      (drawLoop C st).srvTail = st.srvTail ∧
      (drawLoop C st).responseBuffer = st.responseBuffer ∧
      (drawLoop C st).output = st.output := by
  intro n
  induction n with
  | zero =>
    intro st hlen
    rw [drawLoop_eq]
    split
    · split
      · exact ⟨rfl, rfl, rfl, rfl, rfl⟩
      · rename_i r rest heq
        rw [heq] at hlen
        exact absurd hlen (by simp)
    · exact ⟨rfl, rfl, rfl, rfl, rfl⟩
  | succ n ih =>
    intro st hlen
    rw [drawLoop_eq]
    split
    · split
      · exact ⟨rfl, rfl, rfl, rfl, rfl⟩
      · rename_i r rest heq
        have hlen1 : rest.length ≤ n := by
          rw [heq] at hlen
          simpa using hlen
        exact ih _ hlen1
    · exact ⟨rfl, rfl, rfl, rfl, rfl⟩

/-- If the worker has nothing to draw, nothing buffered to send, but pending
requests, then the server still holds undelivered answer bytes: the worker is
never stuck with an empty transport. -/
theorem srvOut_ne_nil_of_stuck {Req Ans : Type} {C : Ctx Req Ans} (hC : CtxOK C)
    {R : List Req} {g : Ghost} {st : WState Req Ans} (h : InvAt C R g st)
    (hmr : st.moreRequests = false) (hbuf : st.requestBuffer = [])
    (hpend : st.pending ≠ []) : st.srvOut ≠ [] := by
  intro hout
  have hdR : g.d = R.length := h.hMore hmr
  -- all command bytes are delivered
  have hsl : g.sentLen = (cmdS C R g.d).length := by
    have h1 : (cmdS C R g.d).drop g.sentLen = [] := by rw [← h.hBuf, hbuf]
    exact Nat.le_antisymm h.hSent (List.drop_eq_nil_iff.mp h1)
  have htk : (cmdS C R g.d).take g.sentLen = cmdS C R g.d := by
    rw [hsl, List.take_length]
  -- so all d command lines are complete at the server
  have hlines : st.srvLines = g.d := by
    rw [h.hLines, htk, splitLines_cmdS C hC]
    simp only [List.length_map]
    exact List.length_take_of_le h.hd
  -- all answer bytes are read
  have hrl : g.readLen = (ansS C st.srvLines).length := by
    have h1 : (ansS C st.srvLines).drop g.readLen = [] := by rw [← h.hOut, hout]
    exact Nat.le_antisymm h.hRead (List.drop_eq_nil_iff.mp h1)
  have htk2 : (ansS C st.srvLines).take g.readLen = ansS C st.srvLines := by
    rw [hrl, List.take_length]
  -- so all d answers are matched
  have hm : g.m = g.d := by
    have h1 := h.hSplit
    rw [htk2, splitLines_ansS C hC] at h1
    have h2 : ansItems C st.srvLines = ansItems C g.m := by
      simpa using congrArg Prod.fst h1
    have h3 := congrArg List.length h2
    rw [length_ansItems, length_ansItems] at h3
    rw [← h3, hlines]
  -- hence the pending queue is empty, contradiction
  have hpe : st.pending = [] := by
    rw [h.hPend, hm]
    refine List.drop_eq_nil_of_le ?_
    rw [List.length_take_of_le h.hd]
  exact hpend hpe

/-- The fully responsive transport environment: `select` always reports
writable, reports readable whenever undelivered answer bytes exist, the
transport accepts every buffered byte in one write, and reads deliver up to
the 1024-byte cap.  This realises the precondition that the server
eventually answers every sent request. -/
def canonPol {Req Ans : Type} (C : Ctx Req Ans) : WState Req Ans → Sched :=
  fun st =>
    { canRead := !st.srvOut.isEmpty
      canWrite := true
      sendAccept := st.requestBuffer.length +
        (lineStream (st.requestIter.map C.encode)).length
      recvCount := 1024 }

theorem workerStep_eq_of_guard_false {Req Ans : Type} (C : Ctx Req Ans)
    (sc : Sched) (st : WState Req Ans) (hg : wguard (drawLoop C st) = false) :
    workerStep C sc st = .ok (drawLoop C st) := by
  rw [workerStep]
  simp [hg]

theorem workerStep_eq_of_phases {Req Ans : Type} (C : Ctx Req Ans) (sc : Sched)
    (st s2 s3 : WState Req Ans) (r : Except (WErr × WState Req Ans) (WState Req Ans))
    (hg : wguard (drawLoop C st) = true)
    (hw : writePhase C sc (drawLoop C st) = .ok s2)
    (hr : readPhase sc s2 = .ok s3) (hp : parsePhase C s3 = r) :
    workerStep C sc st = r := by
  rw [workerStep]
  simp [hg, hw, hr, hp]

theorem workerStep_eq_of_write_error {Req Ans : Type} (C : Ctx Req Ans) (sc : Sched)
    (st : WState Req Ans) (e : WErr × WState Req Ans)
    (hg : wguard (drawLoop C st) = true)
    (hw : writePhase C sc (drawLoop C st) = .error e) :
    workerStep C sc st = .error e := by
  rw [workerStep]
  simp [hg, hw]

theorem workerStep_eq_of_read_error {Req Ans : Type} (C : Ctx Req Ans) (sc : Sched)
    (st s2 : WState Req Ans) (e : WErr × WState Req Ans)
    (hg : wguard (drawLoop C st) = true)
    (hw : writePhase C sc (drawLoop C st) = .ok s2)
    (hr : readPhase sc s2 = .error e) :
    workerStep C sc st = .error e := by
  rw [workerStep]
  simp [hg, hw, hr]

/-- Under the canonical transport environment, one iteration from an
invariant state never raises, preserves the invariant, and makes strict
progress in the lexicographic measure (requests left to draw, buffered
command bytes, undelivered answer bytes) unless the loop is about to
terminate. -/
theorem canonStep {Req Ans : Type} {C : Ctx Req Ans} (hC : CtxOK C) {R : List Req}
    {g : Ghost} {st : WState Req Ans} (h : InvAt C R g st) :
    ∃ st' g', workerStep C (canonPol C st) st = .ok st' ∧ InvAt C R g' st' ∧
      (wguard st' = false ∨
       aMeasure st' < aMeasure st ∨
       (aMeasure st' = aMeasure st ∧
        st'.requestBuffer.length < st.requestBuffer.length) ∨
       (aMeasure st' = aMeasure st ∧
        st'.requestBuffer.length = st.requestBuffer.length ∧
        st'.srvOut.length < st.srvOut.length)) := by
  obtain ⟨d', hd'le, h1⟩ :=
    invAt_drawLoop C hC R st.requestIter.length st g (Nat.le_refl _) h
  by_cases hg1 : wguard (drawLoop C st) = true
  · -- the loop body runs its select/write/read/parse phases
    -- the write cannot raise under the canonical schedule
    have hnoW : ¬((canonPol C st).canWrite = true ∧
        (drawLoop C st).requestBuffer ≠ [] ∧ (canonPol C st).sendAccept = 0) := by
      rintro ⟨-, hb1, ha0⟩
      have ha0' : st.requestBuffer.length = 0 ∧
          (lineStream (st.requestIter.map C.encode)).length = 0 := by
        rw [canonPol] at ha0
        simp only [] at ha0
        omega
      have hiter : st.requestIter = [] := by
        cases hit : st.requestIter with
        | nil => rfl
        | cons r rest =>
          have := ha0'.2
          rw [hit] at this
          simp [lineStream] at this
      rcases drawLoop_of_iter_nil C st hiter with hdl | hdl
      · rw [hdl] at hb1
        exact hb1 (List.length_eq_zero.mp ha0'.1)
      · rw [hdl] at hb1
        exact hb1 (List.length_eq_zero.mp ha0'.1)
    obtain ⟨s2, hw, hInv2, hmr2, hit2, hpd2, hout2, hrb2, ⟨t2, hsrv2⟩, hblen2, hwid⟩ :=
      invAt_writePhase hC h1 (canonPol C st) hnoW
    -- the read cannot raise under the canonical schedule
    have hsOutDraw : (drawLoop C st).srvOut = st.srvOut :=
      (drawLoop_fields C st.requestIter.length st (Nat.le_refl _)).1
    have hnoR : ¬((canonPol C st).canRead = true ∧
        min (canonPol C st).recvCount (min 1024 s2.srvOut.length) = 0) := by
      rintro ⟨hcr, hz⟩
      have hsne : st.srvOut ≠ [] := by
        rw [canonPol] at hcr
        simp only [] at hcr
        exact (not_isEmpty_iff_ne_nil _).mp hcr
      have hlen2 : s2.srvOut.length ≠ 0 := by
        rw [hsrv2, hsOutDraw, List.length_append]
        have := List.length_pos.mpr hsne
        omega
      rw [canonPol] at hz
      simp only [] at hz
      omega
    obtain ⟨s3, hr, st', m', hp, hmle', hInv3, hmr3, hit3, hrb3, hso3⟩ :=
      invAt_readParse hC hInv2 (canonPol C st) hnoR
    refine ⟨st', _, workerStep_eq_of_phases C _ st s2 s3 _ hg1 hw hr hp, hInv3, ?_⟩
    -- measure bookkeeping
    have hameq : aMeasure st' = aMeasure (drawLoop C st) := by
      rw [aMeasure, aMeasure, hmr3, hit3, hmr2, hit2]
    by_cases hmore : st.moreRequests = true
    · by_cases hsmall : st.requestBuffer.length < 4096
      · -- drawing makes strict progress on the first component
        right; left
        rw [hameq]
        exact drawLoop_aMeasure_lt C st hmore hsmall
      · -- the buffer is ≥ 4096 bytes and is written out in full
        have hdl : drawLoop C st = st := drawLoop_of_big_buffer C st hsmall
        right; right; left
        constructor
        · rw [hameq, hdl]
        · rw [hrb3, hblen2, hdl]
          have hacc : (canonPol C st).sendAccept ≥ st.requestBuffer.length := by
            rw [canonPol]
            simp only []
            omega
          have hbne : st.requestBuffer ≠ [] := by
            intro hnil
            rw [hnil] at hsmall
            simp at hsmall
          have hwn : wN (canonPol C st) st = st.requestBuffer.length := by
            rw [wN, if_pos ⟨rfl, hbne⟩]
            omega
          rw [hwn]
          omega
    · -- no more requests: the iterator is exhausted
      have hmr' : st.moreRequests = false := by
        cases hb : st.moreRequests
        · rfl
        · exact absurd hb hmore
      have hdl : drawLoop C st = st := drawLoop_of_not_more C st hmr'
      by_cases hbuf : st.requestBuffer = []
      · -- nothing to write: the canonical read drains answer bytes
        have hpend : st.pending ≠ [] := by
          rw [hdl] at hg1
          rw [wguard, hmr'] at hg1
          simp only [Bool.false_or] at hg1
          simp only [Bool.not_eq_true'] at hg1
          intro hpe
          rw [hpe] at hg1
          simp at hg1
        have hsne : st.srvOut ≠ [] := srvOut_ne_nil_of_stuck hC h hmr' hbuf hpend
        have hs2 : s2 = drawLoop C st := by
          refine hwid ?_
          rintro ⟨-, hb1⟩
          rw [hdl, hbuf] at hb1
          exact hb1 rfl
        right; right; right
        have hso2 : s2.srvOut = st.srvOut := by rw [hs2, hsOutDraw]
        have hrk : rK (canonPol C st) s2 ≥ 1 := by
          rw [rK]
          have hcr : (canonPol C st).canRead = true := by
            rw [canonPol]
            simp only []
            exact (not_isEmpty_iff_ne_nil _).mpr hsne
          rw [if_pos hcr]
          rw [canonPol]
          simp only []
          have : st.srvOut.length ≠ 0 := by
            intro hz
            exact hsne (List.length_eq_zero.mp hz)
          rw [hso2]
          omega
        refine ⟨by rw [hameq, hdl], ?_, ?_⟩
        · rw [hrb3, hs2, hdl]
        · rw [hso3, hso2, List.length_drop]
          have hlp : 0 < st.srvOut.length := List.length_pos.mpr hsne
          omega
      · -- the whole buffer is written out
        right; right; left
        constructor
        · rw [hameq, hdl]
        · rw [hrb3, hblen2, hdl]
          have hbne : st.requestBuffer ≠ [] := hbuf
          have hwn : wN (canonPol C st) st = st.requestBuffer.length := by
            rw [wN, if_pos ⟨rfl, hbne⟩]
            rw [canonPol]
            simp only []
            omega
          rw [hwn]
          have hlp : 0 < st.requestBuffer.length := List.length_pos.mpr hbne
          omega
  · -- the re-checked while condition is false: the body is a no-op
    have hg0 : wguard (drawLoop C st) = false := by
      cases hb : wguard (drawLoop C st)
      · rfl
      · exact absurd hb hg1
    exact ⟨drawLoop C st, _,
      workerStep_eq_of_guard_false C (canonPol C st) st hg0, h1, Or.inl hg0⟩

theorem workerRun_guard_false {Req Ans : Type} (C : Ctx Req Ans)
    (pols : List (WState Req Ans → Sched)) (st : WState Req Ans)
    (hg : wguard st = false) : workerRun C pols st = .done st := by
  cases pols with
  | nil => rw [workerRun]; simp [hg]
  | cons p ps => rw [workerRun]; simp [hg]

theorem workerRun_cons_ok {Req Ans : Type} (C : Ctx Req Ans)
    (pol : WState Req Ans → Sched) (pols : List (WState Req Ans → Sched))
    (st st' : WState Req Ans) (hg : wguard st = true)
    (hstep : workerStep C (pol st) st = .ok st') :
    workerRun C (pol :: pols) st = workerRun C pols st' := by
  rw [workerRun]
  simp [hg, hstep]

theorem workerRun_cons_err {Req Ans : Type} (C : Ctx Req Ans)
    (pol : WState Req Ans → Sched) (pols : List (WState Req Ans → Sched))
    (st stE : WState Req Ans) (e : WErr) (hg : wguard st = true)
    (hstep : workerStep C (pol st) st = .error (e, stE)) :
    workerRun C (pol :: pols) st = .fail e stE := by
  rw [workerRun]
  simp [hg, hstep]

/-- The loop only returns normally from a state where the while condition is
false: no more requests to draw and an empty pending queue. -/
theorem workerRun_done_guard {Req Ans : Type} (C : Ctx Req Ans) :
    ∀ (pols : List (WState Req Ans → Sched)) (st st' : WState Req Ans),
      workerRun C pols st = .done st' → wguard st' = false := by
  intro pols
  induction pols with
  | nil =>
    intro st st' h
    rw [workerRun] at h
    by_cases hg : wguard st = true
    · rw [if_pos hg] at h
      exact absurd h (by simp)
    · have hg0 : wguard st = false := by
        cases hb : wguard st
        · rfl
        · exact absurd hb hg
      rw [if_neg hg] at h
      have : st = st' := by
        have := h
        simp only [RunRes.done.injEq] at this
        exact this
      rw [← this]
      exact hg0
  | cons pol pols ih =>
    intro st st' h
    rw [workerRun] at h
    by_cases hg : wguard st = true
    · rw [if_pos hg] at h
      cases hstep : workerStep C (pol st) st with
      | ok s1 =>
        rw [hstep] at h
        exact ih s1 st' h
      | error e =>
        rw [hstep] at h
        exact absurd h (by simp)
    · have hg0 : wguard st = false := by
        cases hb : wguard st
        · rfl
        · exact absurd hb hg
      rw [if_neg hg] at h
      have : st = st' := by
        simpa only [RunRes.done.injEq] using h
      rw [← this]
      exact hg0

theorem invAt_buffer_le {Req Ans : Type} {C : Ctx Req Ans} {R : List Req}
    {g : Ghost} {st : WState Req Ans} (h : InvAt C R g st) :
    st.requestBuffer.length ≤ (lineStream (R.map C.encode)).length := by
  have h1 : st.requestBuffer.length ≤ (cmdS C R g.d).length := by
    rw [h.hBuf, List.length_drop]
    omega
  refine Nat.le_trans h1 ?_
  have h2 : R.map C.encode = (R.take g.d).map C.encode ++ (R.drop g.d).map C.encode := by
    rw [← List.map_append, List.take_append_drop]
  rw [h2, lineStream_append, List.length_append, cmdS]
  omega

theorem invAt_srvOut_le {Req Ans : Type} {C : Ctx Req Ans} {R : List Req}
    {g : Ghost} {st : WState Req Ans} (h : InvAt C R g st) :
    st.srvOut.length ≤ (ansS C R.length).length := by
  have h1 : st.srvOut.length ≤ (ansS C st.srvLines).length := by
    rw [h.hOut, List.length_drop]
    omega
  refine Nat.le_trans h1 ?_
  have hle : st.srvLines ≤ R.length := Nat.le_trans h.hLinesLe h.hd
  have h2 : R.length = st.srvLines + (R.length - st.srvLines) := by omega
  rw [h2, ansS_add, List.length_append]
  omega

/-- Combined single-number termination measure for the canonical run. -/
def muMeasure {Req Ans : Type} (C : Ctx Req Ans) (R : List Req)
    (st : WState Req Ans) : Nat :=
  aMeasure st *
      (((lineStream (R.map C.encode)).length + 1) * ((ansS C R.length).length + 1)) +
    st.requestBuffer.length * ((ansS C R.length).length + 1) + st.srvOut.length

theorem muMeasure_lt {Req Ans : Type} {C : Ctx Req Ans} {R : List Req}
    {g g' : Ghost} {st st' : WState Req Ans} (h : InvAt C R g st)
    (h' : InvAt C R g' st')
    (hlt : aMeasure st' < aMeasure st ∨
      (aMeasure st' = aMeasure st ∧
       st'.requestBuffer.length < st.requestBuffer.length) ∨
      (aMeasure st' = aMeasure st ∧
       st'.requestBuffer.length = st.requestBuffer.length ∧
       st'.srvOut.length < st.srvOut.length)) :
    muMeasure C R st' < muMeasure C R st := by
  exact lex3_embed _ _ _ _ _ _ _ _ (invAt_buffer_le h) (invAt_srvOut_le h)
    (invAt_buffer_le h') (invAt_srvOut_le h') hlt

/-- Under the canonical transport environment the worker loop terminates
normally from every invariant state, given enough iterations. -/
theorem canonical_done {Req Ans : Type} {C : Ctx Req Ans} (hC : CtxOK C)
    {R : List Req} :
    ∀ (μ : Nat) (g : Ghost) (st : WState Req Ans), InvAt C R g st →
      muMeasure C R st ≤ μ →
      ∃ n st', workerRun C (List.replicate n (canonPol C)) st = .done st' ∧
        ∃ g', InvAt C R g' st' := by
  intro μ
  induction μ with
  | zero =>
    intro g st h hμ
    by_cases hg : wguard st = true
    · -- impossible: a guarded state has positive measure
      exfalso
      obtain ⟨st', g', hstep, h', hdec⟩ := canonStep hC h
      rcases hdec with h0 | hlt | hlt | hlt
      · -- the step made the guard false, so the old state had some work:
        -- measure 0 means aMeasure = bufLen = outLen = 0, so more = false,
        -- buffer = [], and pending ≠ [] forces srvOut ≠ [] — contradiction
        have hzero : aMeasure st = 0 ∧ st.requestBuffer.length = 0 ∧
            st.srvOut.length = 0 := by
          rw [muMeasure] at hμ
          constructor
          · by_contra ha
            have h1 : 1 ≤ aMeasure st := by omega
            have h2 := Nat.mul_le_mul_right
              (((lineStream (R.map C.encode)).length + 1) *
                ((ansS C R.length).length + 1)) h1
            rw [Nat.one_mul] at h2
            have hKpos : 0 < ((lineStream (R.map C.encode)).length + 1) *
                ((ansS C R.length).length + 1) := Nat.mul_pos (by omega) (by omega)
            omega
          constructor
          · by_contra hb
            have h1 : 1 ≤ st.requestBuffer.length := by omega
            have h2 := Nat.mul_le_mul_right ((ansS C R.length).length + 1) h1
            rw [Nat.one_mul] at h2
            omega
          · omega
        have hmr : st.moreRequests = false := by
          have := hzero.1
          rw [aMeasure] at this
          by_contra hb
          have hbt : st.moreRequests = true := by
            cases hx : st.moreRequests
            · exact absurd hx hb
            · rfl
          rw [hbt] at this
          simp at this
        have hbuf : st.requestBuffer = [] := List.length_eq_zero.mp hzero.2.1
        have hpend : st.pending ≠ [] := by
          rw [wguard, hmr] at hg
          simp only [Bool.false_or] at hg
          intro hpe
          rw [hpe] at hg
          simp at hg
        exact srvOut_ne_nil_of_stuck hC h hmr hbuf hpend
          (List.length_eq_zero.mp hzero.2.2)
      · have := muMeasure_lt h h' (Or.inl hlt)
        omega
      · have := muMeasure_lt h h' (Or.inr (Or.inl hlt))
        omega
      · have := muMeasure_lt h h' (Or.inr (Or.inr hlt))
        omega
    · have hg0 : wguard st = false := by
        cases hb : wguard st
        · rfl
        · exact absurd hb hg
      exact ⟨0, st, workerRun_guard_false C _ st hg0, g, h⟩
  | succ μ ih =>
    intro g st h hμ
    by_cases hg : wguard st = true
    · obtain ⟨st', g', hstep, h', hdec⟩ := canonStep hC h
      rcases hdec with h0 | hlt | hlt | hlt
      · refine ⟨1, st', ?_, g', h'⟩
        rw [List.replicate_succ, List.replicate_zero,
          workerRun_cons_ok C _ _ st st' hg hstep]
        exact workerRun_guard_false C _ st' h0
      · have hmu := muMeasure_lt h h' (Or.inl hlt)
        obtain ⟨n, st'', hrun, hinv⟩ := ih g' st' h' (by omega)
        refine ⟨n + 1, st'', ?_, hinv⟩
        rw [List.replicate_succ, workerRun_cons_ok C _ _ st st' hg hstep]
        exact hrun
      · have hmu := muMeasure_lt h h' (Or.inr (Or.inl hlt))
        obtain ⟨n, st'', hrun, hinv⟩ := ih g' st' h' (by omega)
        refine ⟨n + 1, st'', ?_, hinv⟩
        rw [List.replicate_succ, workerRun_cons_ok C _ _ st st' hg hstep]
        exact hrun
      · have hmu := muMeasure_lt h h' (Or.inr (Or.inr hlt))
        obtain ⟨n, st'', hrun, hinv⟩ := ih g' st' h' (by omega)
        refine ⟨n + 1, st'', ?_, hinv⟩
        rw [List.replicate_succ, workerRun_cons_ok C _ _ st st' hg hstep]
        exact hrun
    · have hg0 : wguard st = false := by
        cases hb : wguard st
        · rfl
        · exact absurd hb hg
      exact ⟨0, st, workerRun_guard_false C _ st hg0, g, h⟩

/-- At a normally terminated state, the collected output is exactly the
request list zipped, in order, with the parsed in-order answers. -/
theorem invAt_done_output {Req Ans : Type} {C : Ctx Req Ans} (_hC : CtxOK C)
    {R : List Req} {g : Ghost} {st : WState Req Ans} (h : InvAt C R g st)
    (hg : wguard st = false) :
    st.output = R.zip ((ansItems C R.length).map C.parse) ∧
    st.moreRequests = false ∧ st.pending = [] := by
  have hmr : st.moreRequests = false := by
    rw [wguard] at hg
    cases hb : st.moreRequests
    · rfl
    · rw [hb] at hg
      simp at hg
  have hpend : st.pending = [] := by
    rw [wguard, hmr] at hg
    simp only [Bool.false_or, Bool.not_eq_true'] at hg
    cases hp : st.pending
    · rfl
    · rw [hp] at hg
      simp at hg
  have hd : g.d = R.length := h.hMore hmr
  have hm : g.m = R.length := by
    have h1 := h.hPend
    rw [hpend] at h1
    have h2 : (R.take g.d).length ≤ g.m := by
      by_contra hc
      have h3 : (R.take g.d).drop g.m ≠ [] := by
        intro hnil
        have := List.drop_eq_nil_iff.mp hnil
        omega
      exact h3 h1.symm
    rw [List.length_take_of_le (Nat.le_of_eq hd)] at h2
    have h4 : g.m ≤ g.d := Nat.le_trans h.hmLe h.hLinesLe
    omega
  refine ⟨?_, hmr, hpend⟩
  rw [h.hOutp, hm, List.take_length]

theorem wguard_false_iff {Req Ans : Type} (st : WState Req Ans) :
    wguard st = false ↔ (st.moreRequests = false ∧ st.pending = []) := by
  rw [wguard]
  constructor
  · intro h
    have h1 := h
    cases hb : st.moreRequests
    · rw [hb] at h1
      simp only [Bool.false_or] at h1
      refine ⟨rfl, ?_⟩
      cases hp : st.pending
      · rfl
      · rw [hp] at h1
        simp at h1
    · rw [hb] at h1
      simp at h1
  · rintro ⟨h1, h2⟩
    rw [h1, h2]
    rfl

/-- From an invariant state, one iteration either succeeds and preserves the
invariant, or raises on a zero-byte write or a zero-byte read; the pop on an
empty pending queue is unreachable. -/
theorem workerStep_cases {Req Ans : Type} {C : Ctx Req Ans} (hC : CtxOK C)
    {R : List Req} {g : Ghost} {st : WState Req Ans} (h : InvAt C R g st)
    (sc : Sched) :
    (∃ st' g', workerStep C sc st = .ok st' ∧ InvAt C R g' st') ∨
    (∃ stE, workerStep C sc st = .error (.sendZero, stE)) ∨
    (∃ stE, workerStep C sc st = .error (.recvZero, stE)) := by
  obtain ⟨d', hd'le, h1⟩ :=
    invAt_drawLoop C hC R st.requestIter.length st g (Nat.le_refl _) h
  by_cases hg1 : wguard (drawLoop C st) = true
  · by_cases hwe : sc.canWrite = true ∧ (drawLoop C st).requestBuffer ≠ [] ∧
        sc.sendAccept = 0
    · right; left
      refine ⟨drawLoop C st, ?_⟩
      exact workerStep_eq_of_write_error C sc st _ hg1
        (writePhase_sendZero C sc _ hwe.1 hwe.2.1 hwe.2.2)
    · obtain ⟨s2, hw, hInv2, -, -, -, -, -, -, -, -⟩ :=
        invAt_writePhase hC h1 sc hwe
      by_cases hre : sc.canRead = true ∧
          min sc.recvCount (min 1024 s2.srvOut.length) = 0
      · right; right
        refine ⟨s2, ?_⟩
        exact workerStep_eq_of_read_error C sc st s2 _ hg1 hw
          (readPhase_recvZero sc s2 hre.1 hre.2)
      · obtain ⟨s3, hr, st', m', hp, -, hInv3, -, -, -, -⟩ :=
          invAt_readParse hC hInv2 sc hre
        left
        exact ⟨st', _, workerStep_eq_of_phases C sc st s2 s3 _ hg1 hw hr hp, hInv3⟩
  · have hg0 : wguard (drawLoop C st) = false := by
      cases hb : wguard (drawLoop C st)
      · rfl
      · exact absurd hb hg1
    left
    exact ⟨drawLoop C st, _, workerStep_eq_of_guard_false C sc st hg0, h1⟩

/-- A full run from an invariant state either finishes normally in an
invariant, guard-false state, runs out of schedule, or raises a zero-byte
transport failure — never the empty-queue pop. -/
theorem workerRun_cases {Req Ans : Type} {C : Ctx Req Ans} (hC : CtxOK C)
    {R : List Req} :
    ∀ (pols : List (WState Req Ans → Sched)) (g : Ghost) (st : WState Req Ans),
      InvAt C R g st →
      (∃ st' g', workerRun C pols st = .done st' ∧ InvAt C R g' st' ∧
        wguard st' = false) ∨
      (∃ st', workerRun C pols st = .spin st') ∨
      (∃ e st', workerRun C pols st = .fail e st' ∧
        (e = .sendZero ∨ e = .recvZero)) := by
  intro pols
  induction pols with
  | nil =>
    intro g st h
    by_cases hg : wguard st = true
    · right; left
      refine ⟨st, ?_⟩
      rw [workerRun, if_pos hg]
    · have hg0 : wguard st = false := by
        cases hb : wguard st
        · rfl
        · exact absurd hb hg
      left
      exact ⟨st, g, workerRun_guard_false C [] st hg0, h, hg0⟩
  | cons pol pols ih =>
    intro g st h
    by_cases hg : wguard st = true
    · rcases workerStep_cases hC h (pol st) with ⟨st', g', hstep, h'⟩ | ⟨stE, hstep⟩ |
        ⟨stE, hstep⟩
      · rw [workerRun_cons_ok C pol pols st st' hg hstep]
        exact ih g' st' h'
      · right; right
        exact ⟨.sendZero, stE, workerRun_cons_err C pol pols st stE _ hg hstep,
          Or.inl rfl⟩
      · right; right
        exact ⟨.recvZero, stE, workerRun_cons_err C pol pols st stE _ hg hstep,
          Or.inr rfl⟩
    · have hg0 : wguard st = false := by
        cases hb : wguard st
        · rfl
        · exact absurd hb hg
      left
      exact ⟨st, g, workerRun_guard_false C _ st hg0, h, hg0⟩

/-- Whenever a run from the initial state returns normally, its final state
is an invariant state. -/
theorem workerRun_done_invAt {Req Ans : Type} {C : Ctx Req Ans} (hC : CtxOK C)
    {R : List Req} {pols : List (WState Req Ans → Sched)} {st' : WState Req Ans}
    (hrun : workerRun C pols (initWState R) = .done st') :
    ∃ g', InvAt C R g' st' := by
  rcases workerRun_cases hC pols ⟨0, 0, 0, 0⟩ (initWState R) (invAt_init C R) with
    ⟨st'', g', hd, h', hg⟩ | ⟨st'', hs⟩ | ⟨e, st'', hf, -⟩
  · rw [hrun] at hd
    have : st'' = st' := by simpa only [RunRes.done.injEq] using hd.symm
    rw [← this]
    exact ⟨g', h'⟩
  · rw [hrun] at hs
    exact absurd hs (by simp)
  · rw [hrun] at hf
    exact absurd hf (by simp)

/-- Whenever a run from the initial state returns normally, the output is the
full request list zipped in order with the parsed in-order answers. -/
theorem workerRun_done_output {Req Ans : Type} {C : Ctx Req Ans} (hC : CtxOK C)
    {R : List Req} {pols : List (WState Req Ans → Sched)} {st' : WState Req Ans}
    (hrun : workerRun C pols (initWState R) = .done st') :
    st'.output = R.zip ((ansItems C R.length).map C.parse) := by
  obtain ⟨g', h'⟩ := workerRun_done_invAt hC hrun
  exact (invAt_done_output hC h' (workerRun_done_guard C pols _ st' hrun)).1

/-- The canonical run from the initial state terminates with the complete
in-order output. -/
theorem canonical_run_complete {Req Ans : Type} {C : Ctx Req Ans} (hC : CtxOK C)
    (R : List Req) :
    ∃ n st', workerRun C (List.replicate n (canonPol C)) (initWState R) = .done st' ∧
      st'.output = R.zip ((ansItems C R.length).map C.parse) := by
  obtain ⟨n, st', hrun, -⟩ := canonical_done hC (muMeasure C R (initWState R))
    ⟨0, 0, 0, 0⟩ (initWState R) (invAt_init C R) (Nat.le_refl _)
  exact ⟨n, st', hrun, workerRun_done_output hC hrun⟩

/-! ## The `query_blocks` orchestration (lines 151-190)

`query_blocks` is a generator function (its body contains `yield`, line 190),
so calling it runs none of the body; the body runs on the first `next()`.

* `thread_count == 0` (lines 154-158): `worker_fn` runs inline on the
  caller's socket, then the answer queue is drained in FIFO order.  If the
  worker raises, the exception propagates out of the generator before the
  drain loop: the caller gets no pairs.
* `thread_count ≥ 1` (lines 159-188): `thread_count` new sockets are opened
  and connected; one thread per socket runs `worker_fn`; each thread is
  passed `iter(requests)` (line 171), so a re-iterable `requests` argument
  (list, range, …) gives every worker its own fresh iterator over the whole
  sequence.  `Thread.join` (line 177) swallows any exception raised inside a
  worker thread, after which the drain loop yields whatever pairs reached
  the shared answer queue.  Exceptions during `connect` are re-raised (line
  181) after the `finally` cleanup (lines 182-188). -/

/-- Sequential path (`thread_count == 0`): run the worker inline with the
given transport schedule, then drain the FIFO queue. -/
def query_blocks_seq {Req Ans : Type} (C : Ctx Req Ans) (R : List Req)
    (pols : List (WState Req Ans → Sched)) : RunRes (List (Req × Ans)) :=
  match workerRun C pols (initWState R) with
  | .done st => .done st.output
  | .fail e _ => .fail e []
  | .spin st => .spin st.output

/-- State reached by a worker when its run ends, successfully or not.  Its
`output` field holds exactly the pairs the worker pushed to the shared
answer queue. -/
def runState {Req Ans : Type} : RunRes (WState Req Ans) → WState Req Ans
  | .done st => st
  | .fail _ st => st
  | .spin st => st

/-- Did the worker run raise? -/
def runFailed {Req Ans : Type} : RunRes (WState Req Ans) → Bool
  | .fail _ _ => true
  | _ => false

/-- Per-socket environment behaviour of the threaded path: whether `connect`
raises for this socket, and whether `shutdown` raises during cleanup. -/
structure SockEnv where
  connectFails : Bool
  shutdownFails : Bool
  deriving Repr, DecidableEq

/-- What the cleanup loop (lines 183-188) did to one socket:
`try: s.shutdown(...); s.close() except socket.error: pass`.
If `shutdown` raises, the exception skips `close` and is swallowed by the
`except: pass`; `close` is attempted only when `shutdown` returned. -/
structure CleanupLog where
  shutdownAttempted : Bool
  closeAttempted : Bool
  deriving Repr, DecidableEq

/-- The cleanup of a single socket, as the code performs it. -/
def cleanupOne (e : SockEnv) : CleanupLog :=
  if e.shutdownFails then { shutdownAttempted := true, closeAttempted := false }
  else { shutdownAttempted := true, closeAttempted := true }

/-- Number of sockets created by the connection loop (lines 163-165): the
socket object is appended *before* `connect`, so the socket whose `connect`
raises is also in the list handed to cleanup. -/
def openedCount (tc : Nat) (env : Nat → SockEnv) : Nat :=
  match (List.range tc).find? (fun i => (env i).connectFails) with
  | some i => i + 1
  | none => tc

/-- Result surfaced to the caller by the threaded path. -/
inductive BatchOutcome (Req Ans : Type)
  | ok : List (Req × Ans) → BatchOutcome Req Ans
  | establishError : BatchOutcome Req Ans

/-- Threaded path (`thread_count ≥ 1`) for a re-iterable `requests`
argument: every worker is started on `iter(requests)`, a fresh iterator over
all of `R` (line 171); workers share only the answer queue, so the drained
pair list is the concatenation of the per-worker outputs (one admissible
interleaving; any interleaving has the same multiset).  Worker exceptions
are swallowed by `join`; only `connect` failures are re-raised.  The
`finally` block runs the cleanup loop over every created socket on every
exit path. -/
def query_blocks_threaded {Req Ans : Type} (C : Ctx Req Ans) (R : List Req)
    (tc : Nat) (env : Nat → SockEnv)
    (pols : Nat → List (WState Req Ans → Sched)) :
    BatchOutcome Req Ans × List CleanupLog :=
  let logs := (List.range (openedCount tc env)).map (fun i => cleanupOne (env i))
  if ((List.range tc).find? (fun i => (env i).connectFails)).isSome then
    (.establishError, logs)
  else
    (.ok (((List.range tc).map fun w =>
      runState (workerRun C (pols w) (initWState R))).flatMap
        (fun st => st.output)), logs)

/-! ## Generator-call semantics of `query_blocks` -/

/-- Observable effects of the `query_blocks` body. -/
inductive PyEvent
  | sockOpen
  | sockConnect
  | threadSpawn
  | threadJoin
  | workerTraffic
  | sockShutdown
  | sockClose
  deriving Repr, DecidableEq

/-- The ordered effect trace of the `query_blocks` body: inline worker I/O
for `thread_count == 0`; otherwise socket creation/connection, thread
spawn/join when all connects succeed, and the unconditional cleanup loop. -/
def query_blocks_body_events (tc : Nat) (env : Nat → SockEnv) : List PyEvent :=
  if tc = 0 then [.workerTraffic]
  else
    ((List.range (openedCount tc env)).flatMap fun _ => [.sockOpen, .sockConnect]) ++
    (if ((List.range tc).find? (fun i => (env i).connectFails)).isSome then []
     else (List.range tc).flatMap fun _ => [.threadSpawn, .workerTraffic, .threadJoin]) ++
    ((List.range (openedCount tc env)).flatMap fun i =>
      .sockShutdown ::
        (if (env i).shutdownFails then [] else [.sockClose]))

/-- A Python generator object: calling a generator function allocates this
suspended object capturing the arguments; no statement of the body has run
(`started = false`).  The first `next()` starts the body. -/
structure PyGen (ε : Type) where
  bodyEvents : List ε
  started : Bool

/-- Calling the generator function: allocate the suspended generator. -/
def callGenerator {ε : Type} (body : List ε) : PyGen ε :=
  { bodyEvents := body, started := false }

/-- Effects emitted so far by a generator object. -/
def emittedEvents {ε : Type} (g : PyGen ε) : List ε :=
  if g.started then g.bodyEvents else []

/-- Advancing the generator for the first time runs the body. -/
def advanceGen {ε : Type} (g : PyGen ε) : PyGen ε :=
  { g with started := true }

/-- Calling `query_blocks(connection, requests, fmt, parse_fn, thread_count)`
just builds the suspended generator. -/
def query_blocks_call (tc : Nat) (env : Nat → SockEnv) : PyGen PyEvent :=
  callGenerator (query_blocks_body_events tc env)

/-! ## The picraft convenience wrappers (lines 193-225) -/

/-- A coordinate range together with a count of how many times it has been
iterated (each `for v in vrange` or passing it as the `requests` iterable
performs one pass). -/
structure VRange (V : Type) where
  elems : List V
  passes : Nat

/-- One iteration pass over the range. -/
def iterRange {V : Type} (vr : VRange V) : List V × VRange V :=
  (vr.elems, { vr with passes := vr.passes + 1 })

/-- `alt_picraft_getblock_vrange` (lines 193-207): build the request
sequence from `vrange` (first pass), run `query_blocks` with the default
`thread_count = 0`, collect the pairs into a dict, then re-order by a list
comprehension over `vrange` again (second pass), building a `picraft.Block`
from each looked-up answer.  `none` models the exception path. -/
def alt_picraft_getblock_vrange {V Ans BlockT : Type} [DecidableEq V]
    (C : Ctx V Ans) (mkBlock : Ans → BlockT)
    (pols : List (WState V Ans → Sched)) (vr : VRange V) :
    Option (List (Option BlockT)) × VRange V :=
  let p1 := iterRange vr
  match workerRun C pols (initWState p1.1) with
  | .done st =>
    let p2 := iterRange p1.2
    (some (p2.1.map fun v => (st.output.lookup v).map mkBlock), p2.2)
  | _ => (none, p1.2)

/-- `alt_picraft_getheight_vrange` (lines 210-225): the requests are the
generator `((v[0], v[2]) for v in vrange)` — a single pass over `vrange` —
and the result list comprehension maps directly over the `query_blocks`
output (issued with `thread_count = 0`), relying on its order; `vrange` is
not iterated again. -/
def alt_picraft_getheight_vrange {V Req Ans HV : Type}
    (C : Ctx Req Ans) (proj : V → Req) (mkVec : Req → Ans → HV)
    (pols : List (WState Req Ans → Sched)) (vr : VRange V) :
    Option (List HV) × VRange V :=
  let p1 := iterRange vr
  match workerRun C pols (initWState (p1.1.map proj)) with
  | .done st => (some (st.output.map fun p => mkVec p.1 p.2), p1.2)
  | _ => (none, p1.2)

/-- Did the worker run end by normal loop exit? -/
def isDone {Req Ans : Type} : RunRes (WState Req Ans) → Bool
  | .done _ => true
  | _ => false

theorem isDone_iff {Req Ans : Type} (r : RunRes (WState Req Ans)) :
    isDone r = true ↔ ∃ st, r = .done st := by
  cases r <;> simp [isDone]

/-- Iterated receive-and-split: append each delivered chunk to the receive
buffer (line 139), split on the terminator, consume the complete segments
and retain the trailing one (lines 144-146). -/
def feedChunks : List Char → List (List Char) → List (List Char) × List Char
  | buf, [] => ([], buf)
  | buf, c :: cs =>
    let sp := splitLines (buf ++ c)
    let r2 := feedChunks sp.2 cs
    (sp.1 ++ r2.1, r2.2)

/-- Feeding chunks one read at a time produces the same complete segments
and the same final retained buffer as splitting the whole delivered stream
at once. -/
theorem feedChunks_eq_splitLines :
    ∀ (cs : List (List Char)) (buf : List Char), nl ∉ buf →
      feedChunks buf cs = splitLines (buf ++ cs.flatten) := by
  intro cs
  induction cs with
  | nil =>
    intro buf hb
    rw [feedChunks, List.flatten_nil, List.append_nil, splitLines_no_nl buf hb]
  | cons c cs ih =>
    intro buf hb
    rw [feedChunks]
    rw [ih _ (splitLines_snd_no_nl _), List.flatten_cons, ← List.append_assoc]
    rw [splitLines_append (buf ++ c) cs.flatten]

/-- Looking each key of a duplicate-free key list up in its own zip with a
value list recovers the values in order. -/
theorem map_lookup_zip {V A : Type} [DecidableEq V] :
    ∀ (R : List V) (B : List A), R.Nodup → R.length = B.length →
      R.map (fun v => (R.zip B).lookup v) = B.map some := by
  intro R
  induction R with
  | nil =>
    intro B _ hlen
    cases B with
    | nil => rfl
    | cons b bs => simp at hlen
  | cons r rest ih =>
    intro B hnd hlen
    cases B with
    | nil => simp at hlen
    | cons b bs =>
      have hnotmem : r ∉ rest := (List.nodup_cons.mp hnd).1
      have hnd2 : rest.Nodup := (List.nodup_cons.mp hnd).2
      have hlen2 : rest.length = bs.length := by
        simpa using hlen
      rw [List.zip_cons_cons, List.map_cons, List.map_cons]
      congr 1
      · show (((r, b) :: rest.zip bs).lookup r) = some b
        simp [List.lookup]
      · have hcongr : rest.map (fun v => (((r, b) :: rest.zip bs).lookup v)) =
            rest.map (fun v => ((rest.zip bs).lookup v)) := by
          refine List.map_congr_left ?_
          intro v hv
          have hne : v ≠ r := fun hvr => hnotmem (hvr ▸ hv)
          have hbeq : (v == r) = false := beq_eq_false_iff_ne.mpr hne
          simp [List.lookup, hbeq]
        rw [hcongr, ih bs hnd2 hlen2]

/-- Concrete caller-supplied context for evaluated runs: every request is
formatted as the one-byte command `q`, the server answers every command with
the one-byte reply `a`, and the parse function is the identity. -/
def cW : Ctx Nat (List Char) :=
  { encode := fun _ => ['q']
    answerAt := fun _ => ['a']
    parse := fun s => s }

theorem cW_ok : CtxOK cW := by
  constructor
  · intro r
    show nl ∉ ['q']
    decide
  · intro k
    show nl ∉ ['a']
    decide

/-- Concrete context for the split-reply scenario: the single request is
answered with the two-byte reply `42`. -/
def c5C : Ctx Nat (List Char) :=
  { encode := fun _ => ['q']
    answerAt := fun _ => ['4', '2']
    parse := fun s => s }

/-- Transport environment in which every connect and shutdown succeeds. -/
def envOK : Nat → SockEnv := fun _ => { connectFails := false, shutdownFails := false }

/-- Transport environment in which connects succeed but `shutdown` raises a
socket error during cleanup (e.g. the peer already dropped the
connection). -/
def envShutFail : Nat → SockEnv := fun _ => { connectFails := false, shutdownFails := true }

/-- Schedule that fails the connection after the first answer was read: the
first iteration delivers the first command and its reply; in the second the
socket selects readable but `recv` returns zero bytes (peer gone). -/
def c2pols : List (WState Nat (List Char) → Sched) :=
  [fun _ => { canRead := true, canWrite := true, sendAccept := 2, recvCount := 1024 },
   fun _ => { canRead := true, canWrite := false, sendAccept := 0, recvCount := 1024 }]

/-- Schedule that splits the reply `42\n` across two reads: first `4`, then
`2\n`. -/
def c5pols : List (WState Nat (List Char) → Sched) :=
  [fun _ => { canRead := false, canWrite := true, sendAccept := 2, recvCount := 0 },
   fun _ => { canRead := true, canWrite := false, sendAccept := 0, recvCount := 1 },
   fun _ => { canRead := true, canWrite := false, sendAccept := 0, recvCount := 2 }]

/-! ## Claim theorems -/

/-- **C1** (counter-evidence, code bug): the claim says every request is
delivered exactly once across the aggregate of all workers for every
`thread_count ≥ 1`, all workers sharing one request-source cursor.  The code
instead builds `iter(requests)` separately for each worker thread (line
171), so for a re-iterable `requests` argument (a list or `vector_range`, as
in the module's own demo) every worker receives its own fresh iterator over
the whole sequence: on requests `[7]` with `thread_count = 2` and a fully
responsive server, the batch yields the pair for request `7` twice. -/
theorem c1_reiterable_requests_duplicated :
    (query_blocks_threaded cW [7] 2 envOK
      (fun _ => List.replicate 2 (canonPol cW))).1 =
        .ok [(7, ['a']), (7, ['a'])] ∧
    ([(7, ['a']), (7, ['a'])].count ((7 : Nat), (['a'] : List Char))) = 2 ∧
    ([7] : List Nat).length = 1 :=
  ⟨rfl, by decide, rfl⟩

/-- **C2** (counter-evidence, code bug): the claim says any worker transport
failure makes the whole batch fail and the caller never sees a partial
result set.  In the threaded path a worker's `RuntimeError` is swallowed by
`Thread.join` (line 177), after which the drain loop yields whatever pairs
reached the answer queue: with requests `[0, 1]`, `thread_count = 1`, and a
connection that dies after the first reply, the worker run fails with the
zero-byte-read error, yet the batch returns normally with only the first
pair — a partial result set and no surfaced failure. -/
theorem c2_worker_failure_not_surfaced :
    runFailed (workerRun cW c2pols (initWState [0, 1])) = true ∧
    (query_blocks_threaded cW [0, 1] 1 envOK (fun _ => c2pols)).1 =
      .ok [(0, ['a'])] ∧
    [((0 : Nat), (['a'] : List Char))] ≠
      [0, 1].zip ((ansItems cW 2).map cW.parse) :=
  ⟨rfl, rfl, by decide⟩

/-- **C3**: with `thread_count == 0` and a server that answers every request
in order, `query_blocks` yields the (request, answer) pairs in exactly the
order of `R`, with every request of `R` appearing exactly once: every
normally completed run produces precisely `R` zipped with the parsed
in-order answers, and under the canonical responsive transport such a run
exists. -/
theorem c3_sequential_order_exact {Req Ans : Type} (C : Ctx Req Ans)
    (hC : CtxOK C) (R : List Req) :
    (∀ (pols : List (WState Req Ans → Sched)) (out : List (Req × Ans)),
      query_blocks_seq C R pols = .done out →
      out = R.zip ((ansItems C R.length).map C.parse)) ∧
    (∃ n, query_blocks_seq C R (List.replicate n (canonPol C)) =
      .done (R.zip ((ansItems C R.length).map C.parse))) := by
  constructor
  · intro pols out hdone
    rw [query_blocks_seq] at hdone
    cases hrun : workerRun C pols (initWState R) with
    | done st =>
      rw [hrun] at hdone
      simp only [RunRes.done.injEq] at hdone
      rw [← hdone]
      exact workerRun_done_output hC hrun
    | fail e st =>
      rw [hrun] at hdone
      exact absurd hdone (by simp)
    | spin st =>
      rw [hrun] at hdone
      exact absurd hdone (by simp)
  · obtain ⟨n, st', hrun, hout⟩ := canonical_run_complete hC R
    refine ⟨n, ?_⟩
    rw [query_blocks_seq, hrun]
    show RunRes.done st'.output = _
    rw [hout]

/-- Witness for C3 at a concrete instance. -/
theorem c3_sequential_order_exact_witness :
    CtxOK cW ∧
    (∃ n, query_blocks_seq cW [3, 4] (List.replicate n (canonPol cW)) =
      .done ([3, 4].zip ((ansItems cW ([3, 4] : List Nat).length).map cW.parse))) :=
  ⟨cW_ok, (c3_sequential_order_exact cW cW_ok [3, 4]).2⟩

/-- **C4** (counterexample): the claim says that on every exit path every
successfully opened extra socket is both shut down and closed.  In the
cleanup loop `try: s.shutdown(...); s.close() except socket.error: pass`
(lines 183-188), a `shutdown` that raises a socket error skips `close` for
that socket (the error is swallowed): on a normal completion whose peer
already dropped the connection, the batch succeeds but the socket is never
closed. -/
theorem c4_shutdown_failure_skips_close :
    ((query_blocks_threaded cW [7] 1 envShutFail
      (fun _ => List.replicate 2 (canonPol cW))).2.map
        (fun lg => lg.closeAttempted)) = [false] ∧
    (query_blocks_threaded cW [7] 1 envShutFail
      (fun _ => List.replicate 2 (canonPol cW))).1 = .ok [(7, ['a'])] :=
  ⟨rfl, rfl⟩

/-- **C4** (amended): on every exit path of the `thread_count ≥ 1` path —
normal completion, worker failure, or an exception while opening the Nth
connection after N−1 succeeded — the cleanup loop runs over every created
socket (including the one whose `connect` failed), attempting `shutdown`
then `close` in order; `close` is attempted exactly when `shutdown` did not
raise, every cleanup error is swallowed, and a connection-establishment
failure is still surfaced to the caller after cleanup. -/
theorem c4_cleanup_behaviour {Req Ans : Type} (C : Ctx Req Ans) (R : List Req)
    (tc : Nat) (env : Nat → SockEnv)
    (pols : Nat → List (WState Req Ans → Sched)) :
    (query_blocks_threaded C R tc env pols).2 =
      (List.range (openedCount tc env)).map (fun i => cleanupOne (env i)) ∧
    (∀ lg ∈ (query_blocks_threaded C R tc env pols).2,
      lg.shutdownAttempted = true) ∧
    (∀ e : SockEnv, (cleanupOne e).closeAttempted = !e.shutdownFails) ∧
    ((query_blocks_threaded C R tc env pols).1 = BatchOutcome.establishError ↔
      ((List.range tc).find? (fun i => (env i).connectFails)).isSome = true) := by
  have hsnd : (query_blocks_threaded C R tc env pols).2 =
      (List.range (openedCount tc env)).map (fun i => cleanupOne (env i)) := by
    rw [query_blocks_threaded]
    split <;> rfl
  refine ⟨hsnd, ?_, ?_, ?_⟩
  · intro lg hlg
    rw [hsnd] at hlg
    rcases List.mem_map.mp hlg with ⟨i, -, rfl⟩
    rw [cleanupOne]
    split <;> rfl
  · intro e
    rw [cleanupOne]
    by_cases hs : e.shutdownFails = true
    · rw [if_pos hs, hs]
      rfl
    · have hs0 : e.shutdownFails = false := by
        cases hb : e.shutdownFails
        · rfl
        · exact absurd hb hs
      rw [if_neg hs, hs0]
      rfl
  · rw [query_blocks_threaded]
    by_cases hf : ((List.range tc).find? (fun i => (env i).connectFails)).isSome = true
    · rw [if_pos hf]
      simpa using hf
    · rw [if_neg hf]
      constructor
      · intro hok
        exact absurd hok (by simp)
      · intro hcon
        exact absurd hcon hf

/-- **C5**: a reply split across separate low-level reads is reassembled
exactly: feeding the chunks one read at a time — append to the receive
buffer, split on the terminator, consume the complete segments, retain the
trailing segment — produces the same complete segments and leftover as the
whole stream at once; in particular the reads `"4"` then `"2\n"` yield the
single segment `"42"`, and a full worker run receiving its reply in those
two chunks emits the single pair parsed from `"42"`. -/
theorem c5_split_reply_across_reads :
    (∀ chunks : List (List Char),
      feedChunks [] chunks = splitLines chunks.flatten) ∧
    feedChunks [] [['4'], ['2', nl]] = ([['4', '2']], []) ∧
    isDone (workerRun c5C c5pols (initWState [0])) = true ∧
    (runState (workerRun c5C c5pols (initWState [0]))).output =
      [(0, ['4', '2'])] := by
  refine ⟨?_, by decide, rfl, rfl⟩
  intro chunks
  have h := feedChunks_eq_splitLines chunks [] (by simp)
  simpa using h

/-- **C6**: a write that moves zero bytes while the send buffer is non-empty
raises the zero-byte-send failure; a read that moves zero bytes raises the
zero-byte-read failure; either failure aborts the owning worker's run; and
any such failure can only be raised after the line-118 re-check of the
termination condition has confirmed that termination was not already
reached. -/
theorem c6_zero_byte_transfer_raises {Req Ans : Type} (C : Ctx Req Ans) :
    (∀ (sc : Sched) (st : WState Req Ans),
      wguard (drawLoop C st) = true → sc.canWrite = true →
      (drawLoop C st).requestBuffer ≠ [] → sc.sendAccept = 0 →
      workerStep C sc st = .error (.sendZero, drawLoop C st)) ∧
    (∀ (sc : Sched) (st s2 : WState Req Ans),
      wguard (drawLoop C st) = true →
      writePhase C sc (drawLoop C st) = .ok s2 → sc.canRead = true →
      min sc.recvCount (min 1024 s2.srvOut.length) = 0 →
      workerStep C sc st = .error (.recvZero, s2)) ∧
    (∀ (pol : WState Req Ans → Sched) (pols : List (WState Req Ans → Sched))
      (st stE : WState Req Ans) (e : WErr),
      wguard st = true → workerStep C (pol st) st = .error (e, stE) →
      workerRun C (pol :: pols) st = .fail e stE) ∧
    (∀ (sc : Sched) (st stE : WState Req Ans) (e : WErr),
      workerStep C sc st = .error (e, stE) →
      wguard (drawLoop C st) = true) := by
  refine ⟨?_, ?_, ?_, ?_⟩
  · intro sc st hg hw hb ha
    exact workerStep_eq_of_write_error C sc st _ hg
      (writePhase_sendZero C sc _ hw hb ha)
  · intro sc st s2 hg hwok hr hz
    exact workerStep_eq_of_read_error C sc st s2 _ hg hwok
      (readPhase_recvZero sc s2 hr hz)
  · intro pol pols st stE e hg hstep
    exact workerRun_cons_err C pol pols st stE e hg hstep
  · intro sc st stE e herr
    by_cases hg : wguard (drawLoop C st) = true
    · exact hg
    · have hg0 : wguard (drawLoop C st) = false := by
        cases hb : wguard (drawLoop C st)
        · rfl
        · exact absurd hb hg
      rw [workerStep_eq_of_guard_false C sc st hg0] at herr
      exact absurd herr (by simp)

/-- Witness for C6 at a concrete instance: with one drawn request buffered
and a transport whose `send` accepts zero bytes, the step raises the
zero-byte-send failure. -/
theorem c6_zero_byte_transfer_raises_witness :
    wguard (drawLoop cW (initWState ([0] : List Nat))) = true ∧
    workerStep cW ⟨false, true, 0, 0⟩ (initWState [0]) =
      .error (.sendZero, drawLoop cW (initWState [0])) :=
  ⟨by decide, (c6_zero_byte_transfer_raises cW).1 ⟨false, true, 0, 0⟩
    (initWState [0]) (by decide) rfl (by decide) rfl⟩

/-- **C7**: the worker loop returns normally exactly from states with no
more requests to draw and an empty pending queue; from any other state it
keeps iterating (a normal return never happens at the guarded state
itself); and under the canonical responsive transport — the embodiment of
"the server eventually answers every sent request" — the worker terminates
for every finite request sequence. -/
theorem c7_loop_termination {Req Ans : Type} (C : Ctx Req Ans) (hC : CtxOK C) :
    (∀ (pols : List (WState Req Ans → Sched)) (st st' : WState Req Ans),
      workerRun C pols st = .done st' →
      st'.moreRequests = false ∧ st'.pending = []) ∧
    (∀ (pols : List (WState Req Ans → Sched)) (st : WState Req Ans),
      st.moreRequests = false → st.pending = [] →
      workerRun C pols st = .done st) ∧
    (∀ (pols : List (WState Req Ans → Sched)) (st st' : WState Req Ans),
      wguard st = true → workerRun C pols st = .done st' → st' ≠ st) ∧
    (∀ R : List Req, ∃ n st',
      workerRun C (List.replicate n (canonPol C)) (initWState R) = .done st') := by
  refine ⟨?_, ?_, ?_, ?_⟩
  · intro pols st st' hdone
    exact (wguard_false_iff st').mp (workerRun_done_guard C pols st st' hdone)
  · intro pols st hmr hpend
    exact workerRun_guard_false C pols st ((wguard_false_iff st).mpr ⟨hmr, hpend⟩)
  · intro pols st st' hg hdone heq
    have hg' := workerRun_done_guard C pols st st' hdone
    rw [heq] at hg'
    rw [hg] at hg'
    exact absurd hg' (by simp)
  · intro R
    obtain ⟨n, st', hrun, -⟩ := canonical_run_complete hC R
    exact ⟨n, st', hrun⟩

/-- Witness for C7 at a concrete instance. -/
theorem c7_loop_termination_witness :
    CtxOK cW ∧
    (∃ n st', workerRun cW (List.replicate n (canonPol cW))
      (initWState ([4, 5] : List Nat)) = .done st') :=
  ⟨cW_ok, (c7_loop_termination cW cW_ok).2.2.2 [4, 5]⟩

/-- **C8** (counterexample): the claim says both convenience wrappers
iterate the range input twice.  The height wrapper builds its requests from
the generator `((v[0], v[2]) for v in vrange)` and maps directly over the
`query_blocks` output without touching `vrange` again: on a successful
concrete run it performs exactly one pass over the range, not two. -/
theorem c8_height_wrapper_single_pass :
    (alt_picraft_getheight_vrange cW (fun v : Nat => v) (fun r a => (r, a))
      (List.replicate 2 (canonPol cW)) ⟨[5], 0⟩).2.passes = 1 ∧
    (alt_picraft_getheight_vrange cW (fun v : Nat => v) (fun r a => (r, a))
      (List.replicate 2 (canonPol cW)) ⟨[5], 0⟩).1 = some [(5, ['a'])] ∧
    (alt_picraft_getheight_vrange cW (fun v : Nat => v) (fun r a => (r, a))
      (List.replicate 2 (canonPol cW)) ⟨[5], 0⟩).2.passes ≠ 2 :=
  ⟨rfl, rfl, by decide⟩

/-- **C8** (amended): both wrappers return their results in the range's
original iteration order, but by different means: the block+data wrapper
iterates the range twice (once to build the requests, once to re-order via
the dict), while the height wrapper iterates the range exactly once and
inherits the order from the single-threaded `query_blocks` order
guarantee. -/
theorem c8_wrappers_amended :
    (∀ {V Ans BlockT : Type} [DecidableEq V] (C : Ctx V Ans)
      (mkBlock : Ans → BlockT) (pols : List (WState V Ans → Sched))
      (vr : VRange V), CtxOK C → vr.elems.Nodup →
      isDone (workerRun C pols (initWState vr.elems)) = true →
      (alt_picraft_getblock_vrange C mkBlock pols vr).2.passes = vr.passes + 2 ∧
      (alt_picraft_getblock_vrange C mkBlock pols vr).1 =
        some (((ansItems C vr.elems.length).map C.parse).map
          (fun a => some (mkBlock a)))) ∧
    (∀ {V Req Ans HV : Type} (C : Ctx Req Ans) (proj : V → Req)
      (mkVec : Req → Ans → HV) (pols : List (WState Req Ans → Sched))
      (vr : VRange V), CtxOK C →
      isDone (workerRun C pols (initWState (vr.elems.map proj))) = true →
      (alt_picraft_getheight_vrange C proj mkVec pols vr).2.passes =
        vr.passes + 1 ∧
      (alt_picraft_getheight_vrange C proj mkVec pols vr).1 =
        some (((vr.elems.map proj).zip
          ((ansItems C (vr.elems.map proj).length).map C.parse)).map
            (fun p => mkVec p.1 p.2))) := by
  constructor
  · intro V Ans BlockT instV C mkBlock pols vr hC hnd hdn
    obtain ⟨st', hrun⟩ := (isDone_iff _).mp hdn
    have hout := workerRun_done_output hC hrun
    rw [alt_picraft_getblock_vrange]
    simp only [iterRange]
    rw [hrun]
    constructor
    · rfl
    · simp only [Option.some.injEq]
      have hlen : vr.elems.length = ((ansItems C vr.elems.length).map C.parse).length := by
        rw [List.length_map, length_ansItems]
      have h1 := map_lookup_zip vr.elems ((ansItems C vr.elems.length).map C.parse)
        hnd hlen
      have h2 : vr.elems.map (fun v => (st'.output.lookup v).map mkBlock) =
          (vr.elems.map (fun v => st'.output.lookup v)).map (Option.map mkBlock) := by
        rw [List.map_map]
        rfl
      rw [h2]
      have h3 : vr.elems.map (fun v => st'.output.lookup v) =
          ((ansItems C vr.elems.length).map C.parse).map some := by
        rw [← h1]
        refine List.map_congr_left ?_
        intro v _
        rw [hout]
      rw [h3, List.map_map]
      rfl
  · intro V Req Ans HV C proj mkVec pols vr hC hdn
    obtain ⟨st', hrun⟩ := (isDone_iff _).mp hdn
    have hout := workerRun_done_output hC hrun
    rw [alt_picraft_getheight_vrange]
    simp only [iterRange]
    rw [hrun]
    refine ⟨rfl, ?_⟩
    show some (st'.output.map fun p => mkVec p.1 p.2) = _
    rw [hout]

/-- Witness for the amended C8 at a concrete instance. -/
theorem c8_wrappers_amended_witness :
    CtxOK cW ∧ ([5] : List Nat).Nodup ∧
    isDone (workerRun cW (List.replicate 2 (canonPol cW)) (initWState [5])) = true ∧
    ((alt_picraft_getblock_vrange cW (fun a => a)
        (List.replicate 2 (canonPol cW)) ⟨[5], 0⟩).2.passes =
      (⟨[5], 0⟩ : VRange Nat).passes + 2 ∧
     (alt_picraft_getblock_vrange cW (fun a => a)
        (List.replicate 2 (canonPol cW)) ⟨[5], 0⟩).1 =
      some (((ansItems cW (⟨[5], 0⟩ : VRange Nat).elems.length).map cW.parse).map
        (fun a => some a))) :=
  ⟨cW_ok, by decide, rfl,
    c8_wrappers_amended.1 cW (fun a => a) (List.replicate 2 (canonPol cW))
      ⟨[5], 0⟩ cW_ok (by decide) rfl⟩

/-- **C9**: calling `query_blocks` performs no observable work — the
function body contains `yield` (line 190), so a call only allocates a
suspended generator and emits no events; all socket opening, connecting,
thread management, worker I/O and cleanup happen only once the generator is
first advanced, whose (non-empty) event trace is the orchestration trace. -/
theorem c9_generator_defers_all_work :
    ∀ (tc : Nat) (env : Nat → SockEnv),
      emittedEvents (query_blocks_call tc env) = [] ∧
      emittedEvents (advanceGen (query_blocks_call tc env)) =
        query_blocks_body_events tc env ∧
      query_blocks_body_events tc env ≠ [] := by
  intro tc env
  refine ⟨rfl, rfl, ?_⟩
  cases tc with
  | zero => simp [query_blocks_body_events]
  | succ t =>
    have hopen : 0 < openedCount (t + 1) env := by
      rw [openedCount]
      cases hfind : (List.range (t + 1)).find? (fun i => (env i).connectFails) with
      | none => simp
      | some i => simp
    have hmem : PyEvent.sockOpen ∈ query_blocks_body_events (t + 1) env := by
      rw [query_blocks_body_events, if_neg (Nat.succ_ne_zero t)]
      refine List.mem_append_left _ (List.mem_append_left _ ?_)
      rw [List.mem_flatMap]
      exact ⟨0, List.mem_range.mpr hopen, by simp⟩
    exact List.ne_nil_of_mem hmem

/-- **C10**: starting from the initial worker state — so that the in-order
server model guarantees complete response lines never outnumber sent, not
yet matched requests — no run can fail with the empty-queue pop: its
failure branch is unreachable.  Outside that precondition, a complete line
arriving while the pending queue is empty makes the pop raise. -/
theorem c10_pop_never_empty {Req Ans : Type} (C : Ctx Req Ans) (hC : CtxOK C)
    (R : List Req) :
    (∀ (pols : List (WState Req Ans → Sched)) (stE : WState Req Ans),
      workerRun C pols (initWState R) ≠ .fail .popEmpty stE) ∧
    (∀ (seg : List Char) (segs : List (List Char)) (st : WState Req Ans),
      st.pending = [] →
      matchSegs C (seg :: segs) st = .error (.popEmpty, st)) := by
  constructor
  · intro pols stE hEq
    rcases workerRun_cases hC pols ⟨0, 0, 0, 0⟩ (initWState R) (invAt_init C R) with
      ⟨st'', g', hd, -, -⟩ | ⟨st'', hs⟩ | ⟨e, st'', hf, hone⟩
    · rw [hEq] at hd
      exact absurd hd (by simp)
    · rw [hEq] at hs
      exact absurd hs (by simp)
    · rw [hEq] at hf
      have hinj : WErr.popEmpty = e := by
        have := hf
        simp only [RunRes.fail.injEq] at this
        exact this.1
      rcases hone with h1 | h1 <;> rw [h1] at hinj <;> exact absurd hinj (by simp)
  · intro seg segs st hpend
    rw [matchSegs, hpend]

/-- Witness for C10 at a concrete instance: in the fresh initial state the
pending queue is empty, so a stray complete line raises the pop failure. -/
theorem c10_pop_never_empty_witness :
    CtxOK cW ∧
    matchSegs cW [['x']] (initWState ([] : List Nat)) =
      .error (.popEmpty, initWState []) :=
  ⟨cW_ok, (c10_pop_never_empty cW cW_ok []).2 ['x'] [] (initWState []) rfl⟩

end Mcpi
